import Mathlib

/-!
DeltaTime: a fixed-tick physics loop with a ring-buffer trail.

Shallow embedding of `src/DeltaTime.cpp`.

Modelling conventions

* C++ `int` values are `Int`s.  The two places where a value of the wider type
  `clock_t` is stored into an `int`, the result of `deltaTime` and the variable
  `ptime`, narrow it to 32 bits (`toInt32`).  `/` and `%` are the truncating
  `Int.tdiv` and `Int.tmod`, and a zero divisor is an undefined operation,
  modelled by `none` (`cDiv`, `cMod`).
* C++ `float` values (`v`, `s`, `a`) are exact rationals: rounding, infinities
  and NaN are not modelled.  `(int)x` is truncation toward zero into the 32-bit
  `int` (`toInt`).
* `std::vector` is a `List`.  An `int` used as an index or compared with
  `size()` is first converted to the unsigned `size_t`, where a negative value
  becomes a value above the size of every vector: a negative index is outside
  the vector and a negative `int` is `>=` every size.  A write outside the
  vector is undefined in C++; `vecSet` leaves the list unchanged there.
* `clock()`, the trackbars, `waitKey` and the random colour are the
  environment: every loop iteration receives them in a `FrameInput`.
* `render` works on by-value copies and changes no state of the loop.
-/

namespace DeltaTime

/-! ## System variables -/

/-- Size of the output frame (`scale`). -/
def scale : Int := 600

/-- Size of the subdivisions for the history (`resolution`). -/
def resolution : Int := 6

/-! ## Machine arithmetic -/

/-- C++ `a / b` on `int`: truncating quotient, undefined for `b = 0`. -/
def cDiv (a b : Int) : Option Int :=
  if b = 0 then none else some (Int.tdiv a b)

/-- C++ `a % b` on `int`: truncating remainder, undefined for `b = 0`. -/
def cMod (a b : Int) : Option Int :=
  if b = 0 then none else some (Int.tmod a b)

/-- C++ `vec[i] = x` with an `int` index `i`. -/
def vecSet (vec : List Int) (i : Int) (x : Int) : List Int :=
  if 0 ≤ i then vec.set i.toNat x else vec

/-- C++ `vec[i]` with an `int` index `i`; `none` outside the vector. -/
def vecGet (vec : List Int) (i : Int) : Option Int :=
  if 0 ≤ i then vec[i.toNat]? else none

/-- Narrowing of a `clock_t` value to the 32-bit `int`: the value modulo `2 ^ 32` in
the range `-2 ^ 31 .. 2 ^ 31 - 1`. -/
def toInt32 (n : Int) : Int := (n + 2147483648) % 4294967296 - 2147483648

/-- The number `x` with its fraction dropped (rounded toward zero). -/
def truncate (x : ℚ) : Int := if 0 ≤ x then ⌊x⌋ else ⌈x⌉

/-- C++ `(int)x` on a floating value: `x` truncated toward zero when that fits the
32-bit `int`. Otherwise the conversion is undefined in C++; the value that the
conversion instruction of x86 then leaves, `INT_MIN`, stands for it. -/
def toInt (x : ℚ) : Int :=
  if -2147483648 ≤ truncate x ∧ truncate x ≤ 2147483647 then truncate x else -2147483648

/-! ## Time since the last physics tick -/

/-- Function `deltaTime(previous, offset)`; `clock` is the value `clock()` returns. The
sum is computed in `clock_t` and narrowed to the `int` the function returns. -/
def deltaTime (clock previous offset : Int) : Int :=
  toInt32 ((clock - previous) + offset)

/-! ## Physics object -/

/-- OpenCV `Scalar`, four channel values. -/
structure Scalar where
  val0 : ℚ
  val1 : ℚ
  val2 : ℚ
  val3 : ℚ
deriving DecidableEq

/-- Three-argument constructor `Scalar(v0, v1, v2)`. -/
def Scalar.rgb (v0 v1 v2 : ℚ) : Scalar := ⟨v0, v1, v2, 0⟩

/-- Class `PhysicsPoint`: kinematic variables, history pointer, history, colour. -/
structure PhysicsPoint where
  v : ℚ
  s : ℚ
  a : ℚ
  pointer : Int
  history : List Int
  color : Scalar
deriving DecidableEq

namespace PhysicsPoint

/-- Constructor `PhysicsPoint(velocityIn, displacementIn, accelerationIn, colorIn)`. -/
def new (velocityIn displacementIn accelerationIn : ℚ) (colorIn : Scalar) : PhysicsPoint :=
  { v := velocityIn
    s := displacementIn
    a := accelerationIn
    pointer := 0
    history := List.replicate (Int.tdiv scale resolution).toNat 0
    color := colorIn }

/-- Method `getHistory()`. -/
def getHistory (p : PhysicsPoint) : List Int := p.history

/-- Method `update()`, statement by statement. -/
def update (p : PhysicsPoint) : PhysicsPoint :=
  -- v += a;
  let p1 := { p with v := p.v + p.a }
  -- s += v;
  let p2 := { p1 with s := p1.s + p1.v }
  -- if (s < 20) { v = -v * 0.8; s = 20; }
  let p3 := if p2.s < 20 then { p2 with v := -p2.v * 0.8, s := 20 } else p2
  -- history[pointer] = (int)s;
  let p4 := { p3 with history := vecSet p3.history p3.pointer (toInt p3.s) }
  -- pointer++;
  let p5 := { p4 with pointer := p4.pointer + 1 }
  -- if (pointer >= history.size()) pointer = 0;
  if p5.pointer < 0 ∨ p5.pointer ≥ (p5.history.length : Int) then { p5 with pointer := 0 } else p5

end PhysicsPoint

/-- Function `physicsTick(objects)`: every object is updated, in index order. -/
def physicsTick (objects : List PhysicsPoint) : List PhysicsPoint :=
  objects.map PhysicsPoint.update

/-- The loop of `bump` from index `i` on: `objects[i].v = (direction ? i : -i) + 3`. -/
def bumpFrom (direction : Bool) : Int → List PhysicsPoint → List PhysicsPoint
  | _, [] => []
  | i, p :: ps =>
    { p with v := (((if direction then i else -i) + 3 : Int) : ℚ) } :: bumpFrom direction (i + 1) ps

/-- Function `bump(objects, direction)`. -/
def bump (objects : List PhysicsPoint) (direction : Bool) : List PhysicsPoint :=
  bumpFrom direction 0 objects

/-- The space-key branch of `main`: `points.push_back(PhysicsPoint(8, 20, -0.0981, colour))`. -/
def spawn (points : List PhysicsPoint) (color : Scalar) : List PhysicsPoint :=
  points ++ [PhysicsPoint.new 8 20 (-0.0981) color]

/-- The vector `points` as `main` creates it. -/
def initialPoints : List PhysicsPoint :=
  [PhysicsPoint.new 8 20 (-0.0981) (Scalar.rgb 0 255 0)]

/-! ## The framerate controlled loop -/

/-- Local state of `main` between two iterations; `ticks` is a ghost counter of the
`physicsTick` calls made so far. -/
structure LoopState where
  ptime : Int
  offset : Int
  points : List PhysicsPoint
  ticks : Nat
deriving DecidableEq

/-- What one iteration reads from its environment. -/
structure FrameInput where
  /-- Value of `clock()` inside `deltaTime` -/
  clockDelta : Int
  /-- Value of `clock()` assigned to `ptime` -/
  clockFrame : Int
  /-- Trackbar variable `tickRate` -/
  tickRate : Int
  /-- Trackbar variable `fpsCap` -/
  fpsCap : Int
  /-- Value returned by `waitKey` -/
  key : Int
  /-- Colour drawn for a point added in this iteration -/
  spawnColor : Scalar
deriving DecidableEq

/-- State of `main` on entry to the loop; `clock0` is the first `clock()` value, stored
in the `int ptime`. -/
def initialState (clock0 : Int) : LoopState :=
  { ptime := toInt32 clock0, offset := 0, points := initialPoints, ticks := 0 }

/-- Bound of the tick loop, `delta / (1000 / tickRate)`: the number of iterations of
`for (int i = 0; i < delta / (1000 / tickRate); i++)`. -/
def frameTicks (delta tickRate : Int) : Option Nat :=
  match cDiv 1000 tickRate with
  | none => none
  | some tickDuration =>
    match cDiv delta tickDuration with
    | none => none
    | some n => some n.toNat

/-- The new offset, `delta % (1000 / tickRate)`. -/
def frameOffset (delta tickRate : Int) : Option Int :=
  match cDiv 1000 tickRate with
  | none => none
  | some tickDuration => cMod delta tickDuration

/-- The tick loop `for (...) physicsTick(points);` with `n` iterations: it works on the
points together with the ghost counter of `physicsTick` calls, and every iteration
calls `physicsTick` and counts that call. -/
def tickLoop : Nat → List PhysicsPoint × Nat → List PhysicsPoint × Nat
  | 0, w => w
  | n + 1, w => tickLoop n (physicsTick w.1, w.2 + 1)

/-- Argument of `waitKey`: `1000 / (fpsCap ? fpsCap : 1)`. -/
def pollTimeout (fpsCap : Int) : Option Int :=
  cDiv 1000 (if fpsCap ≠ 0 then fpsCap else 1)

/-- The key dispatch at the end of an iteration: the new points and whether the loop
goes on (`false` is `break`). -/
def dispatch (x : Int) (color : Scalar) (points : List PhysicsPoint) :
    List PhysicsPoint × Bool :=
  if x = 119 then (bump points true, true)
  else if x = 115 then (bump points false, true)
  else if x = 32 then (spawn points color, true)
  else if x ≥ 0 then (points, false)
  else (points, true)

/-- One iteration of the `while (active)` loop. `none`: an undefined operation. -/
def frame (inp : FrameInput) (st : LoopState) : Option (LoopState × Bool) :=
  let delta := deltaTime inp.clockDelta st.ptime st.offset
  match frameTicks delta inp.tickRate with
  | none => none
  | some n =>
    match frameOffset delta inp.tickRate with
    | none => none
    | some offset =>
      match pollTimeout inp.fpsCap with
      | none => none
      | some _ =>
        let moved := tickLoop n (st.points, st.ticks)
        let res := dispatch inp.key inp.spawnColor moved.1
        some ({ ptime := toInt32 inp.clockFrame, offset := offset, points := res.1,
                ticks := moved.2 }, res.2)

/-- The loop over the inputs of successive iterations, up to a `break`. -/
def runLoop : List FrameInput → LoopState → Option LoopState
  | [], st => some st
  | inp :: rest, st =>
    match frame inp st with
    | none => none
    | some (st1, true) => runLoop rest st1
    | some (st1, false) => some st1

/-- The elapsed-time samples `clock() - previous` that `deltaTime` measures in
successive iterations, `ptime` being the current value of that variable. -/
def samples : Int → List FrameInput → List Int
  | _, [] => []
  | ptime, inp :: rest => (inp.clockDelta - ptime) :: samples (toInt32 inp.clockFrame) rest

/-- A key value on which the loop does not `break`. -/
def keepsRunning (x : Int) : Prop :=
  x = 119 ∨ x = 115 ∨ x = 32 ∨ x < 0

instance (x : Int) : Decidable (keepsRunning x) := by
  unfold keepsRunning; infer_instance

/-! ## Sequences of operations on the points -/

/-- The operations of `main` that change the points: a physics tick, a bump (keys
`w` and `s`), and the addition of a point (space key). -/
inductive Command where
  | tick
  | bump (direction : Bool)
  | spawn (color : Scalar)

/-- Effect of one operation on the points. -/
def Command.apply : Command → List PhysicsPoint → List PhysicsPoint
  | Command.tick, points => physicsTick points
  | Command.bump direction, points => DeltaTime.bump points direction
  | Command.spawn color, points => DeltaTime.spawn points color

/-- Effect of a sequence of operations, first to last. -/
def runCommands : List Command → List PhysicsPoint → List PhysicsPoint
  | [], points => points
  | c :: cs, points => runCommands cs (c.apply points)

/-- The method `update()` called `n` times on one point. -/
def updateN : Nat → PhysicsPoint → PhysicsPoint
  | 0, p => p
  | n + 1, p => updateN n p.update

/-- The indices `pointer` at which `n` successive `update()` calls write
`history[pointer]`, in call order. -/
def writeTrace : Nat → PhysicsPoint → List Int
  | 0, _ => []
  | n + 1, p => p.pointer :: writeTrace n p.update

/-- The `record` operation of the specification's HistoryBuffer: write `value` at
`writeCursor`, then advance `writeCursor` to `(writeCursor + 1) mod length`. -/
def specRecord (value : Int) (samples : List Int) (writeCursor : Nat) : List Int × Nat :=
  (samples.set writeCursor value, (writeCursor + 1) % samples.length)

/-! ## The trail drawn by `render` -/

/-- The history loop of `render` on its by-value copy `point` of an object, with `n`
iterations left: the successive values of `point.pointer` at which the loop reads
`history[point.pointer]`; after each read it does `point.pointer++` and resets the
pointer to 0 when `point.pointer >= history.size()`. -/
def trailIndices (history : List Int) : Nat → Int → List Int
  | 0, _ => []
  | n + 1, pointer =>
    pointer :: trailIndices history n
      (if pointer + 1 < 0 ∨ pointer + 1 ≥ (history.length : Int) then 0 else pointer + 1)

/-- The samples `history[point.pointer]` that the history loop of `render` reads for one
object, in drawing order; the loop runs `history.size()` times on
`history = point.getHistory()`. -/
def trailSamples (point : PhysicsPoint) : List (Option Int) :=
  (trailIndices point.getHistory point.getHistory.length point.pointer).map
    (vecGet point.getHistory)

/-- The samples `(int)s` that `n` successive `update()` calls write into the history,
in call order. -/
def sampleTrace : Nat → PhysicsPoint → List Int
  | 0, _ => []
  | n + 1, p => toInt p.update.s :: sampleTrace n p.update

/-! ## Observations of a run -/

/-- The iterations a run executes, each with its input, the state before and the state
after it; the run ends at a `break`, at an undefined operation, or with the inputs. -/
def loopTrace : List FrameInput → LoopState → List (FrameInput × LoopState × LoopState)
  | [], _ => []
  | inp :: rest, st =>
    match frame inp st with
    | none => []
    | some (st1, true) => (inp, st, st1) :: loopTrace rest st1
    | some (st1, false) => [(inp, st, st1)]

/-- Time consumed by the physics ticks of one executed iteration: the number of ticks
it ran times the tick duration `1000 / tickRate` of that iteration. -/
def tickedTime (t : FrameInput × LoopState × LoopState) : Int :=
  ((t.2.2.ticks : Int) - (t.2.1.ticks : Int)) * (1000 / t.1.tickRate)

/-- What can happen to one point: an `update()` call, or an overwrite of its velocity
as `bump` does it. -/
inductive PointOp where
  | update
  | setVelocity (value : ℚ)
deriving DecidableEq

/-- Effect of one `PointOp` on a point. -/
def PointOp.apply : PointOp → PhysicsPoint → PhysicsPoint
  | PointOp.update, p => p.update
  | PointOp.setVelocity value, p => { p with v := value }

/-- Effect of a sequence of `PointOp`s, first to last. -/
def runPointOps : List PointOp → PhysicsPoint → PhysicsPoint
  | [], p => p
  | op :: ops, p => runPointOps ops (op.apply p)

/-- Number of `update()` calls in a sequence of `PointOp`s. -/
def updateCount (ops : List PointOp) : Nat :=
  ops.count PointOp.update

/-- Everything of a point but its velocity. -/
def PhysicsPoint.rest (p : PhysicsPoint) : ℚ × ℚ × Int × List Int × Scalar :=
  (p.s, p.a, p.pointer, p.history, p.color)

/-- Along a sequence of `PointOp`s every `update()` call leaves a displacement below
`2 ^ 31`, so that every cast `(int)s` of the sequence is defined. -/
def samplesFitInt : List PointOp → PhysicsPoint → Prop
  | [], _ => True
  | PointOp.update :: ops, p => p.update.s < 2147483648 ∧ samplesFitInt ops p.update
  | PointOp.setVelocity value :: ops, p => samplesFitInt ops { p with v := value }

/-- State of a point with a history of 100 slots after `k` calls of `update()`: the
cursor is inside the history, every slot is 0 or at least 20, the `min k 100` slots
cyclically before the cursor are at least 20, and once `k >= 1` the displacement is at
least 20 and below `2 ^ 31`, and the slot just before the cursor holds `(int)s`. -/
def FloorTrail (k : Nat) (p : PhysicsPoint) : Prop :=
  p.history.length = 100 ∧ 0 ≤ p.pointer ∧ p.pointer < 100 ∧
  (∀ x ∈ p.history, x = 0 ∨ 20 ≤ x) ∧
  (1 ≤ k → 20 ≤ p.s ∧ p.s < 2147483648 ∧
    vecGet p.history ((p.pointer - 1) % 100) = some (toInt p.s)) ∧
  (∀ j : Int, 1 ≤ j → j ≤ k → j ≤ 100 →
    ∃ x, vecGet p.history ((p.pointer - j) % 100) = some x ∧ 20 ≤ x)

/-! ## Arithmetic of the tick duration -/

theorem cDiv_of_ne_zero (a : Int) {b : Int} (hb : b ≠ 0) : cDiv a b = some (Int.tdiv a b) := by
  simp [cDiv, hb]

theorem cMod_of_ne_zero (a : Int) {b : Int} (hb : b ≠ 0) : cMod a b = some (Int.tmod a b) := by
  simp [cMod, hb]

/-- For a tick rate the trackbar allows and that is not zero, the tick duration
`1000 / tickRate` is defined and lies between 5 and 1000. -/
theorem tickDuration_bounds {r : Int} (h1 : 1 ≤ r) (h200 : r ≤ 200) :
    Int.tdiv 1000 r = 1000 / r ∧ 5 ≤ 1000 / r ∧ 1000 / r ≤ 1000 := by
  refine ⟨Int.tdiv_eq_ediv (by norm_num) (by omega), ?_, ?_⟩
  · exact Int.le_ediv_of_mul_le (by omega) (by omega)
  · exact Int.ediv_le_self _ (by norm_num)

theorem frameTicks_eq {r : Int} (h1 : 1 ≤ r) (h200 : r ≤ 200) {delta : Int} (hd : 0 ≤ delta) :
    frameTicks delta r = some (delta / (1000 / r)).toNat := by
  obtain ⟨htd, h5, -⟩ := tickDuration_bounds h1 h200
  have hr : r ≠ 0 := by omega
  have htd0 : (1000 : Int) / r ≠ 0 := by omega
  simp only [frameTicks, cDiv_of_ne_zero _ hr, htd, cDiv_of_ne_zero _ htd0]
  rw [Int.tdiv_eq_ediv hd (by omega)]

theorem frameOffset_eq {r : Int} (h1 : 1 ≤ r) (h200 : r ≤ 200) {delta : Int} (hd : 0 ≤ delta) :
    frameOffset delta r = some (delta % (1000 / r)) := by
  obtain ⟨htd, h5, -⟩ := tickDuration_bounds h1 h200
  have hr : r ≠ 0 := by omega
  have htd0 : (1000 : Int) / r ≠ 0 := by omega
  simp only [frameOffset, cDiv_of_ne_zero _ hr, htd, cMod_of_ne_zero _ htd0]
  rw [Int.tmod_eq_emod hd (by omega)]

theorem pollTimeout_eq (fpsCap : Int) :
    pollTimeout fpsCap = some (Int.tdiv 1000 (if fpsCap ≠ 0 then fpsCap else 1)) := by
  unfold pollTimeout
  apply cDiv_of_ne_zero
  split <;> simp_all

theorem dispatch_snd_of_keepsRunning {x : Int} (hx : keepsRunning x) (c : Scalar)
    (pts : List PhysicsPoint) : (dispatch x c pts).2 = true := by
  unfold dispatch
  rcases hx with h | h | h | h
  · simp [h]
  · simp [h]
  · simp [h]
  · have h1 : x ≠ 119 := by omega
    have h2 : x ≠ 115 := by omega
    have h3 : x ≠ 32 := by omega
    have h4 : ¬ x ≥ 0 := by omega
    simp [h1, h2, h3, h4]

/-! ## Narrowing and the tick loop -/

/-- A value inside the range of `int` is stored unchanged. -/
theorem toInt32_of_range {n : Int} (h0 : -2147483648 ≤ n) (h1 : n ≤ 2147483647) :
    toInt32 n = n := by
  unfold toInt32; omega

theorem updateN_add (m n : Nat) (p : PhysicsPoint) :
    updateN (m + n) p = updateN n (updateN m p) := by
  induction m generalizing p with
  | zero => simp [updateN]
  | succ m ih => rw [Nat.succ_add, updateN, ih, updateN]

theorem updateN_succ_right (n : Nat) (p : PhysicsPoint) :
    updateN (n + 1) p = (updateN n p).update := by
  rw [updateN_add]; rfl

/-- The tick loop with `n` iterations applies `update()` `n` times to every point, in
place, and counts `n` calls of `physicsTick`. -/
theorem tickLoop_eq : ∀ (n : Nat) (pts : List PhysicsPoint) (c : Nat),
    tickLoop n (pts, c) = (pts.map (updateN n), c + n) := by
  intro n
  induction n with
  | zero =>
    intro pts c
    have h0 : (updateN 0 : PhysicsPoint → PhysicsPoint) = id := funext fun p => rfl
    simp [tickLoop, h0]
  | succ n ih =>
    intro pts c
    have hs : (updateN n ∘ PhysicsPoint.update) = updateN (n + 1) := funext fun p => rfl
    rw [tickLoop, ih, physicsTick, List.map_map, hs]
    congr 1
    omega

/-- One iteration at a tick rate in `1..200` with a non-negative `delta`. -/
theorem frame_eq {r : Int} (h1 : 1 ≤ r) (h200 : r ≤ 200) (inp : FrameInput) (st : LoopState)
    (hr : inp.tickRate = r) (hd : 0 ≤ deltaTime inp.clockDelta st.ptime st.offset) :
    frame inp st =
      some ({ ptime := toInt32 inp.clockFrame
              offset := deltaTime inp.clockDelta st.ptime st.offset % (1000 / r)
              points := (dispatch inp.key inp.spawnColor
                (st.points.map (updateN
                  (deltaTime inp.clockDelta st.ptime st.offset / (1000 / r)).toNat))).1
              ticks := st.ticks +
                (deltaTime inp.clockDelta st.ptime st.offset / (1000 / r)).toNat },
            (dispatch inp.key inp.spawnColor
                (st.points.map (updateN
                  (deltaTime inp.clockDelta st.ptime st.offset / (1000 / r)).toNat))).2) := by
  simp only [frame, hr, frameTicks_eq h1 h200 hd, frameOffset_eq h1 h200 hd, pollTimeout_eq,
    tickLoop_eq]

/-- What an iteration that completes returns. -/
theorem frame_eq_some {inp : FrameInput} {st st1 : LoopState} {b : Bool}
    (hfr : frame inp st = some (st1, b)) :
    ∃ n off, frameTicks (deltaTime inp.clockDelta st.ptime st.offset) inp.tickRate = some n ∧
      frameOffset (deltaTime inp.clockDelta st.ptime st.offset) inp.tickRate = some off ∧
      st1 = { ptime := toInt32 inp.clockFrame, offset := off
              points := (dispatch inp.key inp.spawnColor (st.points.map (updateN n))).1
              ticks := st.ticks + n } ∧
      b = (dispatch inp.key inp.spawnColor (st.points.map (updateN n))).2 := by
  simp only [frame, pollTimeout_eq, tickLoop_eq] at hfr
  cases hT : frameTicks (deltaTime inp.clockDelta st.ptime st.offset) inp.tickRate with
  | none => simp [hT] at hfr
  | some n =>
    cases hO : frameOffset (deltaTime inp.clockDelta st.ptime st.offset) inp.tickRate with
    | none => simp [hT, hO] at hfr
    | some off =>
      simp only [hT, hO, Option.some.injEq, Prod.mk.injEq] at hfr
      exact ⟨n, off, rfl, rfl, hfr.1.symm, hfr.2.symm⟩

/-- The quotient of a sum splits into the quotient of the first part and the quotient
of what that part carries over. -/
theorem carry_div (D S q : Int) (hq : q ≠ 0) : D / q + (D % q + S) / q = (D + S) / q := by
  have h : D + S = (D % q + S) + q * (D / q) := by
    have := Int.emod_add_ediv D q
    omega
  rw [h, Int.add_mul_ediv_left _ _ hq]
  omega

/-- With an elapsed sample of at most `2 ^ 31 - 1000` and an offset below 1000 the sum
that `deltaTime` returns fits `int`. -/
theorem deltaTime_of_fit {clock previous offset : Int} (h0 : 0 ≤ clock - previous)
    (hoff : 0 ≤ offset) (hfit : clock - previous + offset ≤ 2147483647) :
    deltaTime clock previous offset = clock - previous + offset := by
  unfold deltaTime
  exact toInt32_of_range (by omega) hfit

/-- Tick accounting of a run that starts with any offset below the tick duration and
whose elapsed samples fit, with the offset, the `int` that `deltaTime` returns. -/
theorem runLoop_accounting {r : Int} (h1 : 1 ≤ r) (h200 : r ≤ 200) :
    ∀ (inps : List FrameInput) (st : LoopState), 0 ≤ st.offset → st.offset < 1000 / r →
      (∀ inp ∈ inps, inp.tickRate = r) → (∀ inp ∈ inps, keepsRunning inp.key) →
      (∀ d ∈ samples st.ptime inps, 0 ≤ d ∧ d ≤ 2147482648) →
      ∃ st1, runLoop inps st = some st1 ∧
        (st1.ticks : Int) = st.ticks + (st.offset + (samples st.ptime inps).sum) / (1000 / r) ∧
        st1.offset = (st.offset + (samples st.ptime inps).sum) % (1000 / r) := by
  obtain ⟨-, h5, h1000⟩ := tickDuration_bounds h1 h200
  intro inps
  induction inps with
  | nil =>
    intro st hoff hlt _ _ _
    refine ⟨st, rfl, ?_, ?_⟩
    · simp [samples, Int.ediv_eq_zero_of_lt hoff hlt]
    · simp [samples, Int.emod_eq_of_lt hoff hlt]
  | cons inp rest ih =>
    intro st hoff hlt hrate hkeys hpos
    obtain ⟨hd0, hd1⟩ := hpos (inp.clockDelta - st.ptime) (by simp [samples])
    have hdt : deltaTime inp.clockDelta st.ptime st.offset =
        inp.clockDelta - st.ptime + st.offset := deltaTime_of_fit hd0 hoff (by omega)
    have hd : 0 ≤ deltaTime inp.clockDelta st.ptime st.offset := by
      rw [hdt]; omega
    have hfr := frame_eq h1 h200 inp st (hrate inp (by simp)) hd
    have hk := dispatch_snd_of_keepsRunning (hkeys inp (by simp)) inp.spawnColor
      (st.points.map (updateN
        (deltaTime inp.clockDelta st.ptime st.offset / (1000 / r)).toNat))
    rw [hk] at hfr
    simp only [runLoop, hfr, samples, List.sum_cons]
    have hq : 0 ≤ deltaTime inp.clockDelta st.ptime st.offset / (1000 / r) :=
      Int.ediv_nonneg hd (by omega)
    obtain ⟨st1, hrun, hticks, hoffset⟩ := ih
      { ptime := toInt32 inp.clockFrame
        offset := deltaTime inp.clockDelta st.ptime st.offset % (1000 / r)
        points := (dispatch inp.key inp.spawnColor
          (st.points.map (updateN
            (deltaTime inp.clockDelta st.ptime st.offset / (1000 / r)).toNat))).1
        ticks := st.ticks + (deltaTime inp.clockDelta st.ptime st.offset / (1000 / r)).toNat }
      (Int.emod_nonneg _ (by omega)) (Int.emod_lt_of_pos _ (by omega))
      (fun i hi => hrate i (List.mem_cons_of_mem _ hi))
      (fun i hi => hkeys i (List.mem_cons_of_mem _ hi))
      (fun d hd => hpos d (by simp only [samples, List.mem_cons]; exact Or.inr hd))
    refine ⟨st1, hrun, ?_, ?_⟩
    · rw [hticks]
      simp only [Nat.cast_add, Int.toNat_of_nonneg hq]
      rw [add_assoc, carry_div _ _ _ (by omega), hdt]
      congr 2
      omega
    · rw [hoffset]
      simp only [Int.emod_add_emod, hdt]
      congr 1
      omega

/-- On a positive divisor the integer quotient is the floor of the rational quotient. -/
theorem floor_div_int (n q : Int) (hq : 0 < q) : ⌊(n : ℚ) / (q : ℚ)⌋ = n / q := by
  obtain ⟨d, rfl⟩ := Int.eq_ofNat_of_zero_le hq.le
  exact_mod_cast Rat.floor_intCast_div_natCast n d

theorem dispatch_of_neg {x : Int} (hx : x < 0) (c : Scalar) (pts : List PhysicsPoint) :
    dispatch x c pts = (pts, true) := by
  have h1 : x ≠ 119 := by omega
  have h2 : x ≠ 115 := by omega
  have h3 : x ≠ 32 := by omega
  have h4 : ¬ x ≥ 0 := by omega
  simp [dispatch, h1, h2, h3, h4]

/-- An iteration that reads no key moves the points by exactly the ticks it counts. -/
theorem frame_points_of_no_key {inp : FrameInput} {st st1 : LoopState} {b : Bool}
    (hkey : inp.key < 0) (h : frame inp st = some (st1, b)) :
    st.ticks ≤ st1.ticks ∧ st1.points = st.points.map (updateN (st1.ticks - st.ticks)) := by
  obtain ⟨n, off, -, -, rfl, -⟩ := frame_eq_some h
  simp [dispatch_of_neg hkey]

/-- A run that reads no key moves the points by exactly the ticks it counts. -/
theorem runLoop_points_of_no_key :
    ∀ (inps : List FrameInput) (st st1 : LoopState), (∀ inp ∈ inps, inp.key < 0) →
      runLoop inps st = some st1 →
      st.ticks ≤ st1.ticks ∧ st1.points = st.points.map (updateN (st1.ticks - st.ticks)) := by
  intro inps
  induction inps with
  | nil =>
    intro st st1 _ h
    simp only [runLoop, Option.some.injEq] at h
    subst h
    have h0 : (updateN 0 : PhysicsPoint → PhysicsPoint) = id := funext fun p => rfl
    simp [h0]
  | cons inp rest ih =>
    intro st st1 hkeys h
    unfold runLoop at h
    split at h
    · exact absurd h (by simp)
    · next st2 hfr =>
      obtain ⟨hle, hpts⟩ := frame_points_of_no_key (hkeys inp (by simp)) hfr
      obtain ⟨hle1, hpts1⟩ := ih st2 st1 (fun i hi => hkeys i (List.mem_cons_of_mem _ hi)) h
      refine ⟨by omega, ?_⟩
      rw [hpts1, hpts, List.map_map]
      apply List.map_congr_left
      intro p _
      rw [Function.comp, ← updateN_add]
      congr 1
      omega
    · next st2 hfr =>
      simp only [Option.some.injEq] at h
      subst h
      exact frame_points_of_no_key (hkeys inp (by simp)) hfr

/-- Claim C1, refuted at an elapsed sample of `2 ^ 31` ms. At `tickRate = 120` one
iteration that measures this sample from `offset = 0` gets the narrowed
`delta = -2 ^ 31`, so it runs no physics tick, while the floor of the sample divided by
the tick duration 8 is 268435456. -/
theorem sample_beyond_int_runs_no_tick :
    samples (initialState 0).ptime
        [⟨2147483648, 2147483648, 120, 200, -1, Scalar.rgb 0 0 0⟩] = [2147483648] ∧
      deltaTime 2147483648 (initialState 0).ptime (initialState 0).offset = -2147483648 ∧
      (runLoop [⟨2147483648, 2147483648, 120, 200, -1, Scalar.rgb 0 0 0⟩] (initialState 0)).map
        LoopState.ticks = some 0 ∧
      (2147483648 : Int) / (1000 / 120) = 268435456 := by
  decide

/-- Claim C1 as amended. Tick accounting has no drift while the samples fit `int`: at a
constant tick rate in `1..200`, for any run of iterations that starts with `offset = 0`,
never breaks and measures elapsed samples between 0 and `2 ^ 31 - 1000`, the loop
completes, the number of `physicsTick` calls it made is the floor of the total elapsed
time divided by the tick duration `1000 / tickRate`, and the final offset is the total
elapsed time modulo the tick duration. -/
theorem tick_accounting_no_drift (tickRate : Int) (h1 : 1 ≤ tickRate) (h200 : tickRate ≤ 200)
    (inps : List FrameInput) (st : LoopState) (hoff : st.offset = 0)
    (hrate : ∀ inp ∈ inps, inp.tickRate = tickRate)
    (hkeys : ∀ inp ∈ inps, keepsRunning inp.key)
    (hpos : ∀ d ∈ samples st.ptime inps, 0 ≤ d ∧ d ≤ 2147482648) :
    ∃ st1, runLoop inps st = some st1 ∧
      (st1.ticks : Int) - st.ticks =
        ⌊((samples st.ptime inps).sum : ℚ) / ((1000 / tickRate : Int) : ℚ)⌋ ∧
      st1.offset = (samples st.ptime inps).sum % (1000 / tickRate) := by
  obtain ⟨-, h5, -⟩ := tickDuration_bounds h1 h200
  obtain ⟨st1, hrun, hticks, hoffset⟩ := runLoop_accounting h1 h200 inps st
    (by omega) (by omega) hrate hkeys hpos
  rw [hoff, zero_add] at hticks hoffset
  refine ⟨st1, hrun, ?_, hoffset⟩
  rw [floor_div_int _ _ (by omega)]
  omega

/-- Witness for the amended C1: three iterations at the default rate 120 (tick
duration 8) with elapsed samples 5, 7 and 9. -/
theorem tick_accounting_no_drift_witness :
    ∃ st1, runLoop
        [⟨5, 5, 120, 200, -1, Scalar.rgb 0 0 0⟩, ⟨12, 13, 120, 200, 119, Scalar.rgb 0 0 0⟩,
         ⟨22, 22, 120, 200, -1, Scalar.rgb 0 0 0⟩] (initialState 0) = some st1 ∧
      (st1.ticks : Int) - (initialState 0).ticks =
        ⌊((samples (initialState 0).ptime
            [⟨5, 5, 120, 200, -1, Scalar.rgb 0 0 0⟩, ⟨12, 13, 120, 200, 119, Scalar.rgb 0 0 0⟩,
             ⟨22, 22, 120, 200, -1, Scalar.rgb 0 0 0⟩]).sum : ℚ) / ((1000 / 120 : Int) : ℚ)⌋ ∧
      st1.offset = (samples (initialState 0).ptime
            [⟨5, 5, 120, 200, -1, Scalar.rgb 0 0 0⟩, ⟨12, 13, 120, 200, 119, Scalar.rgb 0 0 0⟩,
             ⟨22, 22, 120, 200, -1, Scalar.rgb 0 0 0⟩]).sum % (1000 / 120) :=
  tick_accounting_no_drift 120 (by decide) (by decide) _ _ rfl
    (by simp) (by simp [keepsRunning]) (by decide)

/-- Claim C2, refuted by two runs whose samples both sum to `2 ^ 31` ms. At
`tickRate = 1` (tick duration 1000), from the same state with `offset = 0` and without
key presses, the single sample `2 ^ 31` is narrowed to `delta = -2 ^ 31`: no tick runs
and the final offset is -648; the samples `2 ^ 30, 2 ^ 30` run ticks in both iterations
(1073741 in the first) and end with the offset 648. -/
theorem equal_sums_different_offsets :
    (samples (initialState 0).ptime
        [⟨2147483648, 2147483648, 1, 200, -1, Scalar.rgb 0 0 0⟩]).sum = 2147483648 ∧
      (samples (initialState 0).ptime
        [⟨1073741824, 1073741824, 1, 200, -1, Scalar.rgb 0 0 0⟩,
         ⟨2147483648, 2147483648, 1, 200, -1, Scalar.rgb 0 0 0⟩]).sum = 2147483648 ∧
      (runLoop [⟨2147483648, 2147483648, 1, 200, -1, Scalar.rgb 0 0 0⟩] (initialState 0)).map
        LoopState.offset = some (-648) ∧
      (runLoop [⟨2147483648, 2147483648, 1, 200, -1, Scalar.rgb 0 0 0⟩] (initialState 0)).map
        LoopState.ticks = some 0 ∧
      frameTicks (deltaTime 1073741824 0 0) 1 = some 1073741 ∧
      (runLoop [⟨1073741824, 1073741824, 1, 200, -1, Scalar.rgb 0 0 0⟩,
         ⟨2147483648, 2147483648, 1, 200, -1, Scalar.rgb 0 0 0⟩] (initialState 0)).map
        LoopState.offset = some 648 := by
  decide

/-- Claim C2 as amended. Physics is decoupled from the frame rate while the samples fit
`int`: at a constant tick rate in `1..200`, two runs without key presses that start from
the same points with `offset = 0` and whose elapsed samples, each between 0 and
`2 ^ 31 - 1000`, have the same sum both complete, with the same final points and the
same final offset. -/
theorem physics_decoupled_from_frames (tickRate : Int) (h1 : 1 ≤ tickRate)
    (h200 : tickRate ≤ 200) (inpsA inpsB : List FrameInput) (stA stB : LoopState)
    (hoffA : stA.offset = 0) (hoffB : stB.offset = 0) (hpts : stA.points = stB.points)
    (hrateA : ∀ inp ∈ inpsA, inp.tickRate = tickRate)
    (hrateB : ∀ inp ∈ inpsB, inp.tickRate = tickRate)
    (hkeysA : ∀ inp ∈ inpsA, inp.key < 0) (hkeysB : ∀ inp ∈ inpsB, inp.key < 0)
    (hposA : ∀ d ∈ samples stA.ptime inpsA, 0 ≤ d ∧ d ≤ 2147482648)
    (hposB : ∀ d ∈ samples stB.ptime inpsB, 0 ≤ d ∧ d ≤ 2147482648)
    (hsum : (samples stA.ptime inpsA).sum = (samples stB.ptime inpsB).sum) :
    ∃ endA endB, runLoop inpsA stA = some endA ∧ runLoop inpsB stB = some endB ∧
      endA.points = endB.points ∧ endA.offset = endB.offset := by
  obtain ⟨-, h5, -⟩ := tickDuration_bounds h1 h200
  obtain ⟨endA, hrunA, hticksA, hoffsetA⟩ := runLoop_accounting h1 h200 inpsA stA
    (by omega) (by omega) hrateA (fun i hi => Or.inr (Or.inr (Or.inr (hkeysA i hi)))) hposA
  obtain ⟨endB, hrunB, hticksB, hoffsetB⟩ := runLoop_accounting h1 h200 inpsB stB
    (by omega) (by omega) hrateB (fun i hi => Or.inr (Or.inr (Or.inr (hkeysB i hi)))) hposB
  obtain ⟨hleA, hptsA⟩ := runLoop_points_of_no_key inpsA stA endA hkeysA hrunA
  obtain ⟨hleB, hptsB⟩ := runLoop_points_of_no_key inpsB stB endB hkeysB hrunB
  refine ⟨endA, endB, hrunA, hrunB, ?_, ?_⟩
  · rw [hoffA, hsum] at hticksA
    rw [hoffB] at hticksB
    have hk : endA.ticks - stA.ticks = endB.ticks - stB.ticks := by omega
    rw [hptsA, hptsB, hpts, hk]
  · rw [hoffsetA, hoffsetB, hoffA, hoffB, hsum]

/-- Witness for the amended C2: 16 ms of elapsed time at rate 120, once as one
iteration and once split into iterations of 5, 4 and 7 ms. -/
theorem physics_decoupled_from_frames_witness :
    ∃ endA endB,
      runLoop [⟨16, 16, 120, 200, -1, Scalar.rgb 0 0 0⟩] (initialState 0) = some endA ∧
      runLoop [⟨5, 6, 120, 200, -1, Scalar.rgb 0 0 0⟩, ⟨10, 10, 120, 200, -1, Scalar.rgb 0 0 0⟩,
        ⟨17, 17, 120, 200, -1, Scalar.rgb 0 0 0⟩] (initialState 0) = some endB ∧
      endA.points = endB.points ∧ endA.offset = endB.offset :=
  physics_decoupled_from_frames 120 (by decide) (by decide) _ _ _ _ rfl rfl rfl
    (by simp) (by simp) (by simp) (by simp)
    (by decide) (by decide) (by decide)

/-- Claim C3, evaluated at the default tick rate. With `tickRate = 120` one iteration
that measures 1000 ms from `offset = 0` runs 125 physics ticks, not 120: the tick
duration `1000 / 120` is truncated to 8 ms. -/
theorem ticks_in_one_second_at_rate_120 :
    (runLoop [⟨1000, 1000, 120, 200, -1, Scalar.rgb 0 0 0⟩] (initialState 0)).map
        LoopState.ticks = some 125 ∧
      frameTicks (deltaTime 1000 0 0) 120 = some 125 ∧
      cDiv 1000 120 = some 8 := by
  refine ⟨?_, by decide, by decide⟩
  rw [runLoop, frame_eq (by decide : (1 : Int) ≤ 120) (by decide : (120 : Int) ≤ 200) _ _ rfl
    (by decide), dispatch_of_neg (by decide)]
  decide

/-- Claim C4, evaluated at `tickRate = 0`. The iteration computes `1000 / tickRate`
with a zero divisor, an undefined operation: no guard precedes the division, whatever
the elapsed time, the state and the other inputs are. -/
theorem frame_undefined_at_tickRate_zero (inp : FrameInput) (st : LoopState) :
    frame { inp with tickRate := 0 } st = none ∧
      frameTicks (deltaTime inp.clockDelta st.ptime st.offset) 0 = none ∧
      frameOffset (deltaTime inp.clockDelta st.ptime st.offset) 0 = none := by
  have hT : ∀ d, frameTicks d 0 = none := fun d => by simp [frameTicks, cDiv]
  have hO : ∀ d, frameOffset d 0 = none := fun d => by simp [frameOffset, cDiv]
  refine ⟨?_, hT _, hO _⟩
  simp only [frame, hT]

/-- Claim C5. Zero frame cap is guarded: for every `fpsCap` in `0..240` the timeout
handed to `waitKey` is defined (no zero divisor), equals `1000 / max(fpsCap, 1)` and is
at least 1 ms. -/
theorem pollTimeout_guarded (fpsCap : Int) (h0 : 0 ≤ fpsCap) (h240 : fpsCap ≤ 240) :
    ∃ t, pollTimeout fpsCap = some t ∧ t = 1000 / max fpsCap 1 ∧ 1 ≤ t := by
  refine ⟨Int.tdiv 1000 (if fpsCap ≠ 0 then fpsCap else 1), pollTimeout_eq fpsCap, ?_, ?_⟩
  · by_cases h : fpsCap = 0
    · subst h; decide
    · have hmax : max fpsCap 1 = fpsCap := max_eq_left (by omega)
      rw [if_pos h, hmax]
      exact Int.tdiv_eq_ediv (by norm_num) h0
  · by_cases h : fpsCap = 0
    · subst h; decide
    · rw [if_pos h, Int.tdiv_eq_ediv (by norm_num) h0]
      exact Int.le_ediv_of_mul_le (by omega) (by omega)

/-- Witness for C5 at the guarded value `fpsCap = 0`. -/
theorem pollTimeout_guarded_witness :
    ∃ t, pollTimeout 0 = some t ∧ t = 1000 / max 0 1 ∧ 1 ≤ t :=
  pollTimeout_guarded 0 (by decide) (by decide)

/-! ## The physics object -/

@[simp] theorem length_vecSet (vec : List Int) (i x : Int) :
    (vecSet vec i x).length = vec.length := by
  unfold vecSet; split <;> simp

theorem PhysicsPoint.update_a (p : PhysicsPoint) : p.update.a = p.a := by
  simp only [PhysicsPoint.update]; split_ifs <;> rfl

theorem PhysicsPoint.update_color (p : PhysicsPoint) : p.update.color = p.color := by
  simp only [PhysicsPoint.update]; split_ifs <;> rfl

theorem PhysicsPoint.update_v (p : PhysicsPoint) :
    p.update.v = if p.s + (p.v + p.a) < 20 then -(p.v + p.a) * 0.8 else p.v + p.a := by
  simp only [PhysicsPoint.update]; split_ifs <;> rfl

theorem PhysicsPoint.update_s (p : PhysicsPoint) :
    p.update.s = if p.s + (p.v + p.a) < 20 then 20 else p.s + (p.v + p.a) := by
  simp only [PhysicsPoint.update]; split_ifs <;> rfl

theorem PhysicsPoint.update_history (p : PhysicsPoint) :
    p.update.history = vecSet p.history p.pointer (toInt p.update.s) := by
  rw [PhysicsPoint.update_s]
  simp only [PhysicsPoint.update]; split_ifs <;> rfl

theorem PhysicsPoint.update_pointer (p : PhysicsPoint) :
    p.update.pointer =
      if p.pointer + 1 < 0 ∨ p.pointer + 1 ≥ (p.history.length : Int) then 0
      else p.pointer + 1 := by
  simp only [PhysicsPoint.update]; split_ifs <;> simp_all

theorem PhysicsPoint.update_s_ge (p : PhysicsPoint) : 20 ≤ p.update.s := by
  rw [PhysicsPoint.update_s]
  split_ifs with h
  · exact le_refl _
  · exact not_lt.mp h

/-- For a non-negative value below `2 ^ 31` the cast `(int)x` is the floor of `x`. -/
theorem toInt_of_range {x : ℚ} (hx : 0 ≤ x) (hfit : x < 2147483648) : toInt x = ⌊x⌋ := by
  have htr : truncate x = ⌊x⌋ := by simp [truncate, hx]
  have h0 : (0 : Int) ≤ ⌊x⌋ := Int.floor_nonneg.mpr hx
  have h1 : ⌊x⌋ < 2147483648 := Int.floor_lt.mpr (by exact_mod_cast hfit)
  rw [toInt, htr, if_pos ⟨by omega, by omega⟩]

/-- Claim C6. The method `update()` implements the integrate rule: with `v1 = v + a`
and `s1 = s + v1`, the new velocity is `-v1 * 0.8` and the new displacement 20 when
`s1 < 20`, and they are `v1` and `s1` otherwise; the acceleration is unchanged. In
particular `v = -10, s = 15, a = 0` yields displacement 20 and velocity 8. -/
theorem update_integrate_rule (p : PhysicsPoint) :
    p.update.v = (if p.s + (p.v + p.a) < 20 then -(p.v + p.a) * 0.8 else p.v + p.a) ∧
    p.update.s = (if p.s + (p.v + p.a) < 20 then 20 else p.s + (p.v + p.a)) ∧
    p.update.a = p.a ∧
    (PhysicsPoint.update { p with v := -10, s := 15, a := 0 }).s = 20 ∧
    (PhysicsPoint.update { p with v := -10, s := 15, a := 0 }).v = 8 := by
  refine ⟨p.update_v, p.update_s, p.update_a, ?_, ?_⟩
  · rw [PhysicsPoint.update_s]; norm_num
  · rw [PhysicsPoint.update_v]; norm_num

/-! ## The floor invariant -/

theorem bumpFrom_floor (direction : Bool) :
    ∀ (ps : List PhysicsPoint) (i : Int), (∀ p ∈ ps, 20 ≤ p.s) →
      ∀ q ∈ bumpFrom direction i ps, 20 ≤ q.s := by
  intro ps
  induction ps with
  | nil => intro i _ q hq; simp [bumpFrom] at hq
  | cons p ps ih =>
    intro i h q hq
    simp only [bumpFrom, List.mem_cons] at hq
    rcases hq with rfl | hq
    · exact h p (by simp)
    · exact ih (i + 1) (fun r hr => h r (List.mem_cons_of_mem _ hr)) q hq

theorem physicsTick_floor (ps : List PhysicsPoint) : ∀ q ∈ physicsTick ps, 20 ≤ q.s := by
  intro q hq
  simp only [physicsTick, List.mem_map] at hq
  obtain ⟨p, -, rfl⟩ := hq
  exact p.update_s_ge

theorem spawn_floor (ps : List PhysicsPoint) (c : Scalar) (h : ∀ p ∈ ps, 20 ≤ p.s) :
    ∀ q ∈ spawn ps c, 20 ≤ q.s := by
  intro q hq
  simp only [spawn, List.mem_append, List.mem_singleton] at hq
  rcases hq with hq | rfl
  · exact h q hq
  · simp [PhysicsPoint.new]

theorem initialPoints_floor : ∀ p ∈ initialPoints, 20 ≤ p.s := by
  intro p hp
  simp only [initialPoints, List.mem_singleton] at hp
  subst hp
  simp [PhysicsPoint.new]

theorem updateN_floor : ∀ (n : Nat) (p : PhysicsPoint), 20 ≤ p.s → 20 ≤ (updateN n p).s := by
  intro n
  induction n with
  | zero => intro p h; exact h
  | succ n ih => intro p _; exact ih _ p.update_s_ge

theorem map_updateN_floor (n : Nat) (ps : List PhysicsPoint) (h : ∀ p ∈ ps, 20 ≤ p.s) :
    ∀ q ∈ ps.map (updateN n), 20 ≤ q.s := by
  intro q hq
  obtain ⟨p, hp, rfl⟩ := List.mem_map.mp hq
  exact updateN_floor n p (h p hp)

theorem dispatch_floor (x : Int) (c : Scalar) (ps : List PhysicsPoint)
    (h : ∀ p ∈ ps, 20 ≤ p.s) : ∀ q ∈ (dispatch x c ps).1, 20 ≤ q.s := by
  unfold dispatch
  split_ifs
  · exact bumpFrom_floor true ps 0 h
  · exact bumpFrom_floor false ps 0 h
  · exact spawn_floor ps c h
  · exact h
  · exact h

theorem frame_floor {inp : FrameInput} {st st1 : LoopState} {b : Bool}
    (h : ∀ p ∈ st.points, 20 ≤ p.s) (hfr : frame inp st = some (st1, b)) :
    ∀ q ∈ st1.points, 20 ≤ q.s := by
  obtain ⟨n, off, -, -, rfl, -⟩ := frame_eq_some hfr
  exact dispatch_floor _ _ _ (map_updateN_floor n _ h)

theorem runLoop_floor : ∀ (inps : List FrameInput) (st st1 : LoopState),
    (∀ p ∈ st.points, 20 ≤ p.s) → runLoop inps st = some st1 → ∀ q ∈ st1.points, 20 ≤ q.s := by
  intro inps
  induction inps with
  | nil =>
    intro st st1 h hrun
    simp only [runLoop, Option.some.injEq] at hrun
    subst hrun
    exact h
  | cons inp rest ih =>
    intro st st1 h hrun
    unfold runLoop at hrun
    split at hrun
    · exact absurd hrun (by simp)
    · next st2 hfr => exact ih st2 st1 (frame_floor h hfr) hrun
    · next st2 hfr =>
      simp only [Option.some.injEq] at hrun
      subst hrun
      exact frame_floor h hfr

theorem runCommands_floor : ∀ (cmds : List Command) (ps : List PhysicsPoint),
    (∀ p ∈ ps, 20 ≤ p.s) → ∀ q ∈ runCommands cmds ps, 20 ≤ q.s := by
  intro cmds
  induction cmds with
  | nil => intro ps h; simpa [runCommands] using h
  | cons c cs ih =>
    intro ps h
    apply ih
    cases c with
    | tick => exact physicsTick_floor ps
    | bump d => exact bumpFrom_floor d ps 0 h
    | spawn col => exact spawn_floor ps col h

/-- Claim C7. Displacement never goes below the floor: after one `update()` of any
point the displacement is at least 20; hence every point has `s >= 20` in every state
reached from the initial points by physics ticks, bumps and spawns, and in every state
the main loop reaches from its initial state. -/
theorem displacement_never_below_floor :
    (∀ p : PhysicsPoint, 20 ≤ p.update.s) ∧
    (∀ (cmds : List Command), ∀ p ∈ runCommands cmds initialPoints, 20 ≤ p.s) ∧
    (∀ (inps : List FrameInput) (clock0 : Int) (st : LoopState),
      runLoop inps (initialState clock0) = some st → ∀ p ∈ st.points, 20 ≤ p.s) :=
  ⟨PhysicsPoint.update_s_ge,
   fun cmds => runCommands_floor cmds initialPoints initialPoints_floor,
   fun inps clock0 st hrun =>
     runLoop_floor inps (initialState clock0) st initialPoints_floor hrun⟩

/-! ## The history sample -/

theorem vecGet_vecSet_self {vec : List Int} {i : Int} (h0 : 0 ≤ i) (hlt : i < vec.length)
    (x : Int) : vecGet (vecSet vec i x) i = some x := by
  have hnat : i.toNat < vec.length := by omega
  simp [vecGet, vecSet, h0, hnat]

theorem vecGet_vecSet_of_ne (vec : List Int) {i j : Int} (hne : j ≠ i) (x : Int) :
    vecGet (vecSet vec i x) j = vecGet vec j := by
  unfold vecGet vecSet
  by_cases hj : 0 ≤ j
  · by_cases hi : 0 ≤ i
    · have hnat : i.toNat ≠ j.toNat := by omega
      simp [hj, hi, List.getElem?_set_ne hnat]
    · simp [hj, hi]
  · simp [hj]

theorem PhysicsPoint.new_history_length (v s a : ℚ) (c : Scalar) :
    (PhysicsPoint.new v s a c).history.length = 100 := by
  have h : (Int.tdiv scale resolution).toNat = 100 := by decide
  simp [PhysicsPoint.new, h]

/-- Claim C8, refuted on the first physics tick of the program. The initial point
(`v = 8`, `s = 20`, `a = -0.0981`) moves to `s = 27.9019`; `update()` stores 27 at the
old cursor position 0, while the displacement rounded to the nearest integer is 28. -/
theorem first_tick_sample_is_not_rounded :
    initialPoints.map (fun p => (vecGet p.update.history p.pointer, p.update.s,
      round p.update.s)) = [(some 27, 279019 / 10000, 28)] := by
  have hs : (PhysicsPoint.new 8 20 (-0.0981) (Scalar.rgb 0 255 0)).update.s
      = 279019 / 10000 := by
    rw [PhysicsPoint.update_s]; norm_num [PhysicsPoint.new]
  have hfloor : toInt (279019 / 10000 : ℚ) = 27 := by
    rw [toInt_of_range (by norm_num) (by norm_num), Int.floor_eq_iff]
    constructor <;> norm_num
  have hround : round (279019 / 10000 : ℚ) = 28 := by
    rw [round_eq, Int.floor_eq_iff]
    constructor <;> norm_num
  have hlen : (0 : Int) <
      ((PhysicsPoint.new 8 20 (-0.0981) (Scalar.rgb 0 255 0)).history.length : Int) := by
    rw [PhysicsPoint.new_history_length]; decide
  simp only [initialPoints, List.map_cons, List.map_nil, PhysicsPoint.update_history, hs,
    hfloor, hround]
  rw [show (PhysicsPoint.new 8 20 (-0.0981) (Scalar.rgb 0 255 0)).pointer = 0 from rfl,
    vecGet_vecSet_self (le_refl _) hlen]

/-- Claim C8 as amended. For every point whose cursor is inside its history and whose
displacement after the collision check is below `2 ^ 31`, the integer that `update()`
stores at the old cursor position is that displacement truncated toward zero, which is
its floor since the displacement is at least 20: the stored `n` satisfies
`n <= s < n + 1` and `n >= 20`. -/
theorem history_sample_is_truncation (p : PhysicsPoint) (h0 : 0 ≤ p.pointer)
    (hlt : p.pointer < p.history.length) (hfit : p.update.s < 2147483648) :
    vecGet p.update.history p.pointer = some (toInt p.update.s) ∧
      toInt p.update.s = ⌊p.update.s⌋ ∧
      ((toInt p.update.s : Int) : ℚ) ≤ p.update.s ∧
      p.update.s < ((toInt p.update.s : Int) : ℚ) + 1 ∧
      20 ≤ toInt p.update.s := by
  have hge := p.update_s_ge
  have hfl : toInt p.update.s = ⌊p.update.s⌋ := toInt_of_range (by linarith) hfit
  refine ⟨?_, hfl, ?_, ?_, ?_⟩
  · rw [PhysicsPoint.update_history]
    exact vecGet_vecSet_self h0 hlt _
  · rw [hfl]; exact Int.floor_le _
  · rw [hfl]; exact Int.lt_floor_add_one _
  · rw [hfl]; exact Int.le_floor.mpr (by exact_mod_cast hge)

/-- Witness for the amended C8: the initial point of the program. -/
theorem history_sample_is_truncation_witness :
    vecGet (PhysicsPoint.new 8 20 (-0.0981) (Scalar.rgb 0 255 0)).update.history
        (PhysicsPoint.new 8 20 (-0.0981) (Scalar.rgb 0 255 0)).pointer =
      some (toInt (PhysicsPoint.new 8 20 (-0.0981) (Scalar.rgb 0 255 0)).update.s) ∧
      toInt (PhysicsPoint.new 8 20 (-0.0981) (Scalar.rgb 0 255 0)).update.s =
        ⌊(PhysicsPoint.new 8 20 (-0.0981) (Scalar.rgb 0 255 0)).update.s⌋ ∧
      ((toInt (PhysicsPoint.new 8 20 (-0.0981) (Scalar.rgb 0 255 0)).update.s : Int) : ℚ) ≤
        (PhysicsPoint.new 8 20 (-0.0981) (Scalar.rgb 0 255 0)).update.s ∧
      (PhysicsPoint.new 8 20 (-0.0981) (Scalar.rgb 0 255 0)).update.s <
        ((toInt (PhysicsPoint.new 8 20 (-0.0981) (Scalar.rgb 0 255 0)).update.s : Int) : ℚ) + 1 ∧
      20 ≤ toInt (PhysicsPoint.new 8 20 (-0.0981) (Scalar.rgb 0 255 0)).update.s :=
  history_sample_is_truncation (PhysicsPoint.new 8 20 (-0.0981) (Scalar.rgb 0 255 0))
    (by simp [PhysicsPoint.new]) (by rw [PhysicsPoint.new_history_length]; decide)
    (by rw [PhysicsPoint.update_s]; norm_num [PhysicsPoint.new])

/-! ## The cursor of the ring buffer -/

/-- With the cursor inside the history, `update()` moves it to `(pointer + 1) mod length`
and keeps the length of the history. -/
theorem PhysicsPoint.update_pointer_mod (p : PhysicsPoint) (h0 : 0 ≤ p.pointer)
    (hlt : p.pointer < p.history.length) :
    p.update.pointer = (p.pointer + 1) % p.history.length ∧
      p.update.history.length = p.history.length := by
  constructor
  · rw [PhysicsPoint.update_pointer]
    by_cases h : p.pointer + 1 = p.history.length
    · rw [if_pos (Or.inr (by omega)), h, Int.emod_self]
    · rw [if_neg (by omega), Int.emod_eq_of_lt (by omega) (by omega)]
  · rw [PhysicsPoint.update_history, length_vecSet]

theorem updateN_pointer : ∀ (k : Nat) (p : PhysicsPoint), 0 ≤ p.pointer →
    p.pointer < p.history.length →
    (updateN k p).pointer = (p.pointer + k) % p.history.length ∧
      (updateN k p).history.length = p.history.length := by
  intro k
  induction k with
  | zero =>
    intro p h0 hlt
    simp [updateN, Int.emod_eq_of_lt h0 hlt]
  | succ k ih =>
    intro p h0 hlt
    obtain ⟨hptr, hlen⟩ := p.update_pointer_mod h0 hlt
    have hpos : (0 : Int) < p.history.length := by omega
    obtain ⟨h1, h2⟩ := ih p.update (by rw [hptr]; exact Int.emod_nonneg _ (by omega))
      (by rw [hptr, hlen]; exact Int.emod_lt_of_pos _ hpos)
    refine ⟨?_, by rw [updateN, h2, hlen]⟩
    rw [updateN, h1, hptr, hlen, Int.emod_add_emod]
    congr 1
    push_cast
    ring

theorem writeTrace_eq : ∀ (k : Nat) (p : PhysicsPoint), 0 ≤ p.pointer →
    p.pointer < p.history.length →
    writeTrace k p =
      (List.range k).map (fun i : Nat => (p.pointer + i) % (p.history.length : Int)) := by
  intro k
  induction k with
  | zero => intro p _ _; simp [writeTrace]
  | succ k ih =>
    intro p h0 hlt
    obtain ⟨hptr, hlen⟩ := p.update_pointer_mod h0 hlt
    have hpos : (0 : Int) < p.history.length := by omega
    rw [writeTrace, ih p.update (by rw [hptr]; exact Int.emod_nonneg _ (by omega))
      (by rw [hptr, hlen]; exact Int.emod_lt_of_pos _ hpos), List.range_succ_eq_map,
      List.map_cons, List.map_map, hptr, hlen]
    congr 1
    · simp [Int.emod_eq_of_lt h0 hlt]
    · apply List.map_congr_left
      intro i _
      simp only [Function.comp, Int.emod_add_emod]
      congr 1
      push_cast
      ring

/-- Adding the offsets `0 .. n-1` to a cursor modulo `n` reaches every slot once. -/
theorem count_rotated_range (n : Nat) (c : Int) (j : Nat) (hj : j < n) :
    ((List.range n).map (fun i : Nat => (c + i) % (n : Int))).count (j : Int) = 1 := by
  have hn : (0 : Int) < n := by omega
  apply List.count_eq_one_of_mem
  · apply List.Nodup.map_on _ (List.nodup_range n)
    intro x hx y hy hxy
    rw [List.mem_range] at hx hy
    have hdvd : (n : Int) ∣ (c + x) - (c + y) :=
      Int.dvd_of_emod_eq_zero (Int.emod_eq_emod_iff_emod_sub_eq_zero.mp hxy)
    have hzero : (c + x) - (c + y) = 0 :=
      Int.eq_zero_of_abs_lt_dvd hdvd (by rw [abs_lt]; constructor <;> omega)
    omega
  · rw [List.mem_map]
    refine ⟨((j - c) % (n : Int)).toNat, ?_, ?_⟩
    · rw [List.mem_range]
      have := Int.emod_lt_of_pos (j - c) hn
      have := Int.emod_nonneg (j - c) (show (n : Int) ≠ 0 by omega)
      omega
    · show (c + ((((j : Int) - c) % (n : Int)).toNat : Int)) % (n : Int) = j
      rw [Int.toNat_of_nonneg (Int.emod_nonneg _ (by omega)), Int.add_emod_emod,
        add_sub_cancel, Int.emod_eq_of_lt (by omega) (by omega)]

/-- Claim C10. The increment-and-reset cursor logic of `update()` is the modular
record operation: for a point whose cursor is inside its history, `update()` yields the
history and cursor of `specRecord`, that is, it writes its sample at index `pointer`,
leaves every other slot unchanged, and sets the cursor to `(pointer + 1) mod length`. -/
theorem update_refines_record (p : PhysicsPoint) (h0 : 0 ≤ p.pointer)
    (hlt : p.pointer < p.history.length) :
    p.update.history = (specRecord (toInt p.update.s) p.history p.pointer.toNat).1 ∧
      p.update.pointer = ((specRecord (toInt p.update.s) p.history p.pointer.toNat).2 : Int) ∧
      vecGet p.update.history p.pointer = some (toInt p.update.s) ∧
      (∀ j : Int, j ≠ p.pointer → vecGet p.update.history j = vecGet p.history j) ∧
      p.update.pointer = (p.pointer + 1) % p.history.length := by
  obtain ⟨hptr, -⟩ := p.update_pointer_mod h0 hlt
  refine ⟨?_, ?_, ?_, ?_, hptr⟩
  · rw [PhysicsPoint.update_history]
    simp [specRecord, vecSet, h0]
  · rw [hptr]
    simp only [specRecord]
    push_cast
    rw [Int.toNat_of_nonneg h0]
  · rw [PhysicsPoint.update_history]
    exact vecGet_vecSet_self h0 hlt _
  · intro j hj
    rw [PhysicsPoint.update_history]
    exact vecGet_vecSet_of_ne _ hj _

/-- Witness for C10: a point with three history slots and the cursor on the last. -/
theorem update_refines_record_witness :
    (PhysicsPoint.update ⟨0, 25, 0, 2, [7, 8, 9], Scalar.rgb 0 0 0⟩).history =
      (specRecord (toInt (PhysicsPoint.update ⟨0, 25, 0, 2, [7, 8, 9], Scalar.rgb 0 0 0⟩).s)
        (PhysicsPoint.mk 0 25 0 2 [7, 8, 9] (Scalar.rgb 0 0 0)).history
        (PhysicsPoint.mk 0 25 0 2 [7, 8, 9] (Scalar.rgb 0 0 0)).pointer.toNat).1 ∧
    (PhysicsPoint.update ⟨0, 25, 0, 2, [7, 8, 9], Scalar.rgb 0 0 0⟩).pointer =
      ((specRecord (toInt (PhysicsPoint.update ⟨0, 25, 0, 2, [7, 8, 9], Scalar.rgb 0 0 0⟩).s)
        (PhysicsPoint.mk 0 25 0 2 [7, 8, 9] (Scalar.rgb 0 0 0)).history
        (PhysicsPoint.mk 0 25 0 2 [7, 8, 9] (Scalar.rgb 0 0 0)).pointer.toNat).2 : Int) ∧
    vecGet (PhysicsPoint.update ⟨0, 25, 0, 2, [7, 8, 9], Scalar.rgb 0 0 0⟩).history
        (PhysicsPoint.mk 0 25 0 2 [7, 8, 9] (Scalar.rgb 0 0 0)).pointer =
      some (toInt (PhysicsPoint.update ⟨0, 25, 0, 2, [7, 8, 9], Scalar.rgb 0 0 0⟩).s) ∧
    (∀ j : Int, j ≠ (PhysicsPoint.mk 0 25 0 2 [7, 8, 9] (Scalar.rgb 0 0 0)).pointer →
      vecGet (PhysicsPoint.update ⟨0, 25, 0, 2, [7, 8, 9], Scalar.rgb 0 0 0⟩).history j =
        vecGet (PhysicsPoint.mk 0 25 0 2 [7, 8, 9] (Scalar.rgb 0 0 0)).history j) ∧
    (PhysicsPoint.update ⟨0, 25, 0, 2, [7, 8, 9], Scalar.rgb 0 0 0⟩).pointer =
      ((PhysicsPoint.mk 0 25 0 2 [7, 8, 9] (Scalar.rgb 0 0 0)).pointer + 1) %
        (PhysicsPoint.mk 0 25 0 2 [7, 8, 9] (Scalar.rgb 0 0 0)).history.length :=
  update_refines_record ⟨0, 25, 0, 2, [7, 8, 9], Scalar.rgb 0 0 0⟩ (by decide) (by decide)

/-! ## Invariants of the points along a run -/

theorem bumpFrom_invariant (P : PhysicsPoint → Prop)
    (hv : ∀ (p : PhysicsPoint) (x : ℚ), P p → P { p with v := x }) (direction : Bool) :
    ∀ (ps : List PhysicsPoint) (i : Int), (∀ p ∈ ps, P p) →
      ∀ q ∈ bumpFrom direction i ps, P q := by
  intro ps
  induction ps with
  | nil => intro i _ q hq; simp [bumpFrom] at hq
  | cons p ps ih =>
    intro i h q hq
    simp only [bumpFrom, List.mem_cons] at hq
    rcases hq with rfl | hq
    · exact hv p _ (h p (by simp))
    · exact ih (i + 1) (fun r hr => h r (List.mem_cons_of_mem _ hr)) q hq

theorem physicsTick_invariant (P : PhysicsPoint → Prop)
    (hu : ∀ p : PhysicsPoint, P p → P p.update) (ps : List PhysicsPoint)
    (h : ∀ p ∈ ps, P p) : ∀ q ∈ physicsTick ps, P q := by
  intro q hq
  simp only [physicsTick, List.mem_map] at hq
  obtain ⟨p, hp, rfl⟩ := hq
  exact hu p (h p hp)

theorem spawn_invariant (P : PhysicsPoint → Prop)
    (hn : ∀ c : Scalar, P (PhysicsPoint.new 8 20 (-0.0981) c)) (ps : List PhysicsPoint)
    (c : Scalar) (h : ∀ p ∈ ps, P p) : ∀ q ∈ spawn ps c, P q := by
  intro q hq
  simp only [spawn, List.mem_append, List.mem_singleton] at hq
  rcases hq with hq | rfl
  · exact h q hq
  · exact hn c

theorem map_updateN_invariant (P : PhysicsPoint → Prop)
    (hu : ∀ p : PhysicsPoint, P p → P p.update) (n : Nat) (ps : List PhysicsPoint)
    (h : ∀ p ∈ ps, P p) : ∀ q ∈ ps.map (updateN n), P q := by
  have hn : ∀ (k : Nat) (p : PhysicsPoint), P p → P (updateN k p) := by
    intro k
    induction k with
    | zero => intro p hp; exact hp
    | succ k ih => intro p hp; exact ih _ (hu p hp)
  intro q hq
  obtain ⟨p, hp, rfl⟩ := List.mem_map.mp hq
  exact hn n p (h p hp)

theorem dispatch_invariant (P : PhysicsPoint → Prop)
    (hv : ∀ (p : PhysicsPoint) (x : ℚ), P p → P { p with v := x })
    (hn : ∀ c : Scalar, P (PhysicsPoint.new 8 20 (-0.0981) c))
    (x : Int) (c : Scalar) (ps : List PhysicsPoint) (h : ∀ p ∈ ps, P p) :
    ∀ q ∈ (dispatch x c ps).1, P q := by
  unfold dispatch
  split_ifs
  · exact bumpFrom_invariant P hv true ps 0 h
  · exact bumpFrom_invariant P hv false ps 0 h
  · exact spawn_invariant P hn ps c h
  · exact h
  · exact h

theorem frame_invariant (P : PhysicsPoint → Prop)
    (hu : ∀ p : PhysicsPoint, P p → P p.update)
    (hv : ∀ (p : PhysicsPoint) (x : ℚ), P p → P { p with v := x })
    (hn : ∀ c : Scalar, P (PhysicsPoint.new 8 20 (-0.0981) c))
    {inp : FrameInput} {st st1 : LoopState} {b : Bool}
    (h : ∀ p ∈ st.points, P p) (hfr : frame inp st = some (st1, b)) :
    ∀ q ∈ st1.points, P q := by
  obtain ⟨n, off, -, -, rfl, -⟩ := frame_eq_some hfr
  exact dispatch_invariant P hv hn _ _ _ (map_updateN_invariant P hu n _ h)

theorem runLoop_invariant (P : PhysicsPoint → Prop)
    (hu : ∀ p : PhysicsPoint, P p → P p.update)
    (hv : ∀ (p : PhysicsPoint) (x : ℚ), P p → P { p with v := x })
    (hn : ∀ c : Scalar, P (PhysicsPoint.new 8 20 (-0.0981) c)) :
    ∀ (inps : List FrameInput) (st st1 : LoopState),
      (∀ p ∈ st.points, P p) → runLoop inps st = some st1 → ∀ q ∈ st1.points, P q := by
  intro inps
  induction inps with
  | nil =>
    intro st st1 h hrun
    simp only [runLoop, Option.some.injEq] at hrun
    subst hrun
    exact h
  | cons inp rest ih =>
    intro st st1 h hrun
    unfold runLoop at hrun
    split at hrun
    · exact absurd hrun (by simp)
    · next st2 hfr => exact ih st2 st1 (frame_invariant P hu hv hn h hfr) hrun
    · next st2 hfr =>
      simp only [Option.some.injEq] at hrun
      subst hrun
      exact frame_invariant P hu hv hn h hfr

theorem runCommands_invariant (P : PhysicsPoint → Prop)
    (hu : ∀ p : PhysicsPoint, P p → P p.update)
    (hv : ∀ (p : PhysicsPoint) (x : ℚ), P p → P { p with v := x })
    (hn : ∀ c : Scalar, P (PhysicsPoint.new 8 20 (-0.0981) c)) :
    ∀ (cmds : List Command) (ps : List PhysicsPoint),
      (∀ p ∈ ps, P p) → ∀ q ∈ runCommands cmds ps, P q := by
  intro cmds
  induction cmds with
  | nil => intro ps h; simpa [runCommands] using h
  | cons c cs ih =>
    intro ps h
    apply ih
    cases c with
    | tick => exact physicsTick_invariant P hu ps h
    | bump d => exact bumpFrom_invariant P hv d ps 0 h
    | spawn col => exact spawn_invariant P hn ps col h

/-! ## The ring-buffer invariant -/

/-- The cursor of a point is inside its history of 100 slots. -/
theorem cursor_inside_preserved (p : PhysicsPoint)
    (h : p.history.length = 100 ∧ 0 ≤ p.pointer ∧ p.pointer < p.history.length) :
    p.update.history.length = 100 ∧ 0 ≤ p.update.pointer ∧
      p.update.pointer < p.update.history.length := by
  obtain ⟨hlen, h0, hlt⟩ := h
  obtain ⟨hptr, hl⟩ := p.update_pointer_mod h0 hlt
  have hpos : (0 : Int) < p.history.length := by omega
  refine ⟨by rw [hl, hlen], ?_, ?_⟩
  · rw [hptr]; exact Int.emod_nonneg _ (by omega)
  · rw [hptr, hl]; exact Int.emod_lt_of_pos _ hpos

theorem cursor_inside_new (v s a : ℚ) (c : Scalar) :
    (PhysicsPoint.new v s a c).history.length = 100 ∧ 0 ≤ (PhysicsPoint.new v s a c).pointer ∧
      (PhysicsPoint.new v s a c).pointer < (PhysicsPoint.new v s a c).history.length := by
  refine ⟨PhysicsPoint.new_history_length v s a c, le_refl _, ?_⟩
  rw [PhysicsPoint.new_history_length]
  show (0 : Int) < ((100 : Nat) : Int)
  decide

/-- Claim C11. Ring-buffer invariant: a new `PhysicsPoint` has a history of
`scale / resolution = 100` zeros and `pointer = 0`; every `update()` keeps the length of
the history, and keeps `0 <= pointer < length`; so in every state reached from the
initial points by ticks, bumps and spawns, and in every state the main loop reaches,
the cursor of every point is inside its history of 100 slots. -/
theorem ring_buffer_invariant :
    (∀ (v s a : ℚ) (c : Scalar),
      Int.tdiv scale resolution = 100 ∧
      (PhysicsPoint.new v s a c).history = List.replicate 100 0 ∧
      (PhysicsPoint.new v s a c).pointer = 0) ∧
    (∀ p : PhysicsPoint, p.update.history.length = p.history.length) ∧
    (∀ p : PhysicsPoint, 0 ≤ p.pointer → p.pointer < p.history.length →
      0 ≤ p.update.pointer ∧ p.update.pointer < p.update.history.length) ∧
    (∀ (cmds : List Command), ∀ p ∈ runCommands cmds initialPoints,
      p.history.length = 100 ∧ 0 ≤ p.pointer ∧ p.pointer < p.history.length) ∧
    (∀ (inps : List FrameInput) (clock0 : Int) (st : LoopState),
      runLoop inps (initialState clock0) = some st →
      ∀ p ∈ st.points, p.history.length = 100 ∧ 0 ≤ p.pointer ∧
        p.pointer < p.history.length) := by
  have hinit : ∀ p ∈ initialPoints,
      p.history.length = 100 ∧ 0 ≤ p.pointer ∧ p.pointer < p.history.length := by
    intro p hp
    simp only [initialPoints, List.mem_singleton] at hp
    subst hp
    exact cursor_inside_new _ _ _ _
  refine ⟨?_, ?_, ?_, ?_, ?_⟩
  · intro v s a c
    have h : Int.tdiv scale resolution = 100 := by decide
    exact ⟨h, by simp [PhysicsPoint.new, h], rfl⟩
  · intro p
    rw [PhysicsPoint.update_history, length_vecSet]
  · intro p h0 hlt
    obtain ⟨hptr, hl⟩ := p.update_pointer_mod h0 hlt
    have hpos : (0 : Int) < p.history.length := by omega
    constructor
    · rw [hptr]; exact Int.emod_nonneg _ (by omega)
    · rw [hptr, hl]; exact Int.emod_lt_of_pos _ hpos
  · intro cmds
    exact runCommands_invariant _ cursor_inside_preserved (fun p x h => h)
      (fun c => cursor_inside_new _ _ _ c) cmds initialPoints hinit
  · intro inps clock0 st hrun
    exact runLoop_invariant _ cursor_inside_preserved (fun p x h => h)
      (fun c => cursor_inside_new _ _ _ c) inps (initialState clock0) st hinit hrun

/-! ## The bump -/

theorem length_bumpFrom (direction : Bool) :
    ∀ (ps : List PhysicsPoint) (i : Int), (bumpFrom direction i ps).length = ps.length := by
  intro ps
  induction ps with
  | nil => intro i; rfl
  | cons p ps ih => intro i; simp [bumpFrom, ih]

/-- The object at position `k` of the loop started at index `i` gets the velocity of
index `i + k`, and nothing else of it changes. -/
theorem getElem?_bumpFrom (direction : Bool) :
    ∀ (ps : List PhysicsPoint) (i : Int) (k : Nat),
      (bumpFrom direction i ps)[k]? = ps[k]?.map (fun p =>
        { p with v := (((if direction then i + k else -(i + k)) + 3 : Int) : ℚ) }) := by
  intro ps
  induction ps with
  | nil => intro i k; simp [bumpFrom]
  | cons p ps ih =>
    intro i k
    cases k with
    | zero => simp [bumpFrom]
    | succ k =>
      simp only [bumpFrom, List.getElem?_cons_succ, ih]
      have h : i + 1 + (k : Int) = i + ((k + 1 : Nat) : Int) := by push_cast; ring
      rw [h]

theorem map_rest_bumpFrom (direction : Bool) :
    ∀ (ps : List PhysicsPoint) (i : Int),
      (bumpFrom direction i ps).map PhysicsPoint.rest = ps.map PhysicsPoint.rest := by
  intro ps
  induction ps with
  | nil => intro i; rfl
  | cons p ps ih => intro i; simp [bumpFrom, ih, PhysicsPoint.rest]

/-- The result of the loop of `bump` does not depend on the velocities it overwrites. -/
theorem bumpFrom_congr (direction : Bool) :
    ∀ (ps qs : List PhysicsPoint) (i : Int),
      qs.map PhysicsPoint.rest = ps.map PhysicsPoint.rest →
      bumpFrom direction i qs = bumpFrom direction i ps := by
  intro ps
  induction ps with
  | nil =>
    intro qs i h
    have hq : qs = [] := by simpa using h
    rw [hq]
  | cons p ps ih =>
    intro qs i h
    cases qs with
    | nil => simp at h
    | cons q qs =>
      simp only [List.map_cons, List.cons.injEq, PhysicsPoint.rest, Prod.mk.injEq] at h
      obtain ⟨⟨hs, ha, hp, hh, hc⟩, hrest⟩ := h
      simp only [bumpFrom, ih qs (i + 1) hrest, List.cons.injEq, and_true]
      simp [hs, ha, hp, hh, hc]

/-- Claim C12. The function `bump` sets staggered velocities by index: after
`bump(objects, direction)` the object at index `i` has velocity
`(direction ? i : -i) + 3`; on three objects `bump(true)` yields the velocities 3, 4, 5
and `bump(false)` yields 3, 2, 1. -/
theorem bump_staggered_velocities :
    (∀ (objects : List PhysicsPoint) (direction : Bool) (i : Nat),
      ((bump objects direction)[i]?).map PhysicsPoint.v =
        (objects[i]?).map (fun _ =>
          (((if direction then (i : Int) else -(i : Int)) + 3 : Int) : ℚ))) ∧
    (∀ (objects : List PhysicsPoint) (direction : Bool),
      (bump objects direction).length = objects.length) ∧
    (∀ p0 p1 p2 : PhysicsPoint,
      (bump [p0, p1, p2] true).map PhysicsPoint.v = [3, 4, 5] ∧
      (bump [p0, p1, p2] false).map PhysicsPoint.v = [3, 2, 1]) := by
  refine ⟨?_, ?_, ?_⟩
  · intro objects direction i
    rw [bump, getElem?_bumpFrom]
    cases objects[i]? <;> simp
  · intro objects direction
    exact length_bumpFrom direction objects 0
  · intro p0 p1 p2
    constructor <;> norm_num [bump, bumpFrom]

/-- Claim C16. The function `bump` overwrites the velocity and touches nothing else:
it keeps the number and order of the objects and every object's displacement,
acceleration, cursor, history and colour; its result does not depend on the velocities
before it, so applying it twice with the same direction equals applying it once. -/
theorem bump_overwrites_only_velocity :
    (∀ (objects : List PhysicsPoint) (direction : Bool),
      (bump objects direction).length = objects.length ∧
      (bump objects direction).map PhysicsPoint.rest = objects.map PhysicsPoint.rest ∧
      bump (bump objects direction) direction = bump objects direction) ∧
    (∀ (objects others : List PhysicsPoint) (direction : Bool),
      others.map PhysicsPoint.rest = objects.map PhysicsPoint.rest →
      bump others direction = bump objects direction) ∧
    (∀ (objects : List PhysicsPoint) (direction : Bool) (i : Nat) (p : PhysicsPoint),
      objects[i]? = some p →
      (bump objects direction)[i]? = some
        { p with v := (((if direction then (i : Int) else -(i : Int)) + 3 : Int) : ℚ) }) := by
  refine ⟨?_, ?_, ?_⟩
  · intro objects direction
    refine ⟨length_bumpFrom direction objects 0, map_rest_bumpFrom direction objects 0, ?_⟩
    exact bumpFrom_congr direction objects _ 0 (map_rest_bumpFrom direction objects 0)
  · intro objects others direction h
    exact bumpFrom_congr direction objects others 0 h
  · intro objects direction i p hp
    rw [bump, getElem?_bumpFrom, hp]
    simp

/-! ## Spawning and the key dispatch -/

theorem length_physicsTick (ps : List PhysicsPoint) : (physicsTick ps).length = ps.length := by
  simp [physicsTick]

theorem length_dispatch_ge (x : Int) (c : Scalar) (ps : List PhysicsPoint) :
    ps.length ≤ (dispatch x c ps).1.length := by
  unfold dispatch
  split_ifs
  · exact (length_bumpFrom true ps 0).ge
  · exact (length_bumpFrom false ps 0).ge
  · simp [spawn]
  · exact le_refl _
  · exact le_refl _

theorem length_frame_ge {inp : FrameInput} {st st1 : LoopState} {b : Bool}
    (hfr : frame inp st = some (st1, b)) : st.points.length ≤ st1.points.length := by
  obtain ⟨n, off, -, -, rfl, -⟩ := frame_eq_some hfr
  calc st.points.length = (st.points.map (updateN n)).length := (List.length_map _ _).symm
    _ ≤ _ := length_dispatch_ge _ _ _

theorem length_runLoop_ge : ∀ (inps : List FrameInput) (st st1 : LoopState),
    runLoop inps st = some st1 → st.points.length ≤ st1.points.length := by
  intro inps
  induction inps with
  | nil =>
    intro st st1 hrun
    simp only [runLoop, Option.some.injEq] at hrun
    subst hrun
    exact le_refl _
  | cons inp rest ih =>
    intro st st1 hrun
    unfold runLoop at hrun
    split at hrun
    · exact absurd hrun (by simp)
    · next st2 hfr => exact le_trans (length_frame_ge hfr) (ih st2 st1 hrun)
    · next st2 hfr =>
      simp only [Option.some.injEq] at hrun
      subst hrun
      exact length_frame_ge hfr

theorem length_runCommands_ge : ∀ (cmds : List Command) (ps : List PhysicsPoint),
    ps.length ≤ (runCommands cmds ps).length := by
  intro cmds
  induction cmds with
  | nil => intro ps; exact le_refl _
  | cons c cs ih =>
    intro ps
    refine le_trans ?_ (ih _)
    cases c with
    | tick => exact (length_physicsTick ps).ge
    | bump d => exact (length_bumpFrom d ps 0).ge
    | spawn col => simp [Command.apply, spawn]

/-- Claim C13. Spawn only appends: on the space key (code 32) the points become the
previous list, unchanged and in order, followed by one new point with `v = 8`, `s = 20`,
`a = -0.0981`; and no tick, bump, spawn, key dispatch, iteration or run of the main
loop decreases the number of points. -/
theorem spawn_only_appends :
    (∀ (c : Scalar) (points : List PhysicsPoint),
      dispatch 32 c points = (points ++ [PhysicsPoint.new 8 20 (-0.0981) c], true) ∧
      spawn points c = points ++ [PhysicsPoint.new 8 20 (-0.0981) c] ∧
      (spawn points c).length = points.length + 1 ∧
      (PhysicsPoint.new 8 20 (-0.0981) c).v = 8 ∧
      (PhysicsPoint.new 8 20 (-0.0981) c).s = 20 ∧
      (PhysicsPoint.new 8 20 (-0.0981) c).a = -981 / 10000) ∧
    (∀ points : List PhysicsPoint, (physicsTick points).length = points.length) ∧
    (∀ (points : List PhysicsPoint) (direction : Bool),
      (bump points direction).length = points.length) ∧
    (∀ (x : Int) (c : Scalar) (points : List PhysicsPoint),
      points.length ≤ (dispatch x c points).1.length) ∧
    (∀ (inp : FrameInput) (st st1 : LoopState) (b : Bool), frame inp st = some (st1, b) →
      st.points.length ≤ st1.points.length) ∧
    (∀ (inps : List FrameInput) (st st1 : LoopState), runLoop inps st = some st1 →
      st.points.length ≤ st1.points.length) ∧
    (∀ (cmds : List Command) (points : List PhysicsPoint),
      points.length ≤ (runCommands cmds points).length) := by
  refine ⟨?_, length_physicsTick, fun ps d => length_bumpFrom d ps 0, length_dispatch_ge,
    fun _ _ _ _ h => length_frame_ge h, length_runLoop_ge, length_runCommands_ge⟩
  intro c points
  refine ⟨by simp [dispatch, spawn], rfl, by simp [spawn], rfl, rfl, ?_⟩
  norm_num [PhysicsPoint.new]

/-- Claim C14. Key dispatch: key 119 applies `bump(true)`, key 115 applies
`bump(false)`, key 32 adds one point, and the loop goes on in these three cases; any
other key `x >= 0` ends the loop with the points unchanged; `x < 0` (no key) leaves the
points unchanged and the loop goes on. The loop ends exactly when `x >= 0` and `x` is
none of 119, 115, 32. -/
theorem key_dispatch (x : Int) (c : Scalar) (points : List PhysicsPoint) :
    (x = 119 → dispatch x c points = (bump points true, true)) ∧
    (x = 115 → dispatch x c points = (bump points false, true)) ∧
    (x = 32 → dispatch x c points = (spawn points c, true) ∧
      (spawn points c).length = points.length + 1) ∧
    (0 ≤ x → x ≠ 119 → x ≠ 115 → x ≠ 32 → dispatch x c points = (points, false)) ∧
    (x < 0 → dispatch x c points = (points, true)) ∧
    ((dispatch x c points).2 = false ↔ (0 ≤ x ∧ x ≠ 119 ∧ x ≠ 115 ∧ x ≠ 32)) ∧
    (∀ (inp : FrameInput) (rest : List FrameInput) (st st1 : LoopState) (b : Bool),
      inp.key = x → frame inp st = some (st1, b) →
      (b = false ↔ (0 ≤ x ∧ x ≠ 119 ∧ x ≠ 115 ∧ x ≠ 32)) ∧
      runLoop (inp :: rest) st = if b = false then some st1 else runLoop rest st1) := by
  have hiff : (dispatch x c points).2 = false ↔ (0 ≤ x ∧ x ≠ 119 ∧ x ≠ 115 ∧ x ≠ 32) := by
    unfold dispatch
    split_ifs <;> simp <;> omega
  have hiff2 : ∀ (c2 : Scalar) (pts : List PhysicsPoint),
      (dispatch x c2 pts).2 = false ↔ (0 ≤ x ∧ x ≠ 119 ∧ x ≠ 115 ∧ x ≠ 32) := by
    intro c2 pts
    unfold dispatch
    split_ifs <;> simp <;> omega
  refine ⟨?_, ?_, ?_, ?_, fun h => dispatch_of_neg h c points, hiff, ?_⟩
  · intro h; simp [dispatch, h]
  · intro h; simp [dispatch, h]
  · intro h; simp [dispatch, h, spawn]
  · intro h0 h1 h2 h3; simp [dispatch, h0, h1, h2, h3]
  · intro inp rest st st1 b hkey hfr
    obtain ⟨n, off, -, -, -, hb⟩ := frame_eq_some hfr
    constructor
    · rw [hb, hkey]; exact hiff2 _ _
    · cases b <;> simp [runLoop, hfr]

/-! ## The tick loop of one iteration -/

/-- Claim C17, refuted at an elapsed sample of `2 ^ 31` ms. At `tickRate = 120` and
`offset = 0` the narrowed `delta` is `-2 ^ 31`, the bound of the tick loop is negative
and the iteration runs no tick, while `floor((elapsed + offset) / (1000 / tickRate))` is
268435456. -/
theorem frame_beyond_int_runs_no_tick :
    deltaTime 2147483648 (initialState 0).ptime (initialState 0).offset = -2147483648 ∧
      frameTicks (deltaTime 2147483648 (initialState 0).ptime (initialState 0).offset) 120
        = some 0 ∧
      (frame ⟨2147483648, 2147483648, 120, 200, -1, Scalar.rgb 0 0 0⟩ (initialState 0)).map
        (fun r => r.1.ticks) = some 0 ∧
      ((2147483648 - (initialState 0).ptime) + (initialState 0).offset) / (1000 / 120)
        = 268435456 := by
  decide

/-- Claim C17 as amended. One iteration advances every point by exactly the computed
tick count while `delta` fits `int`: at a tick rate in `1..200`, with `offset >= 0`, a
non-negative elapsed sample and `elapsed + offset <= 2 ^ 31 - 1`, the value `delta` is
`elapsed + offset`, the tick loop runs `k = floor(delta / (1000 / tickRate))` times and
makes `k` calls of `physicsTick`, and the points after it are the same list, in order,
with `update()` applied `k` times to each point; for `k = 0` they are unchanged. The
iteration completes and hands these points to the key dispatch. -/
theorem frame_advances_points (tickRate : Int) (h1 : 1 ≤ tickRate) (h200 : tickRate ≤ 200)
    (inp : FrameInput) (st : LoopState) (hr : inp.tickRate = tickRate)
    (hoff : 0 ≤ st.offset) (hel : 0 ≤ inp.clockDelta - st.ptime)
    (hfit : inp.clockDelta - st.ptime + st.offset ≤ 2147483647) :
    ∃ k : Nat,
      deltaTime inp.clockDelta st.ptime st.offset = (inp.clockDelta - st.ptime) + st.offset ∧
      (k : Int) = ⌊((deltaTime inp.clockDelta st.ptime st.offset : Int) : ℚ) /
        ((1000 / tickRate : Int) : ℚ)⌋ ∧
      frameTicks (deltaTime inp.clockDelta st.ptime st.offset) tickRate = some k ∧
      tickLoop k (st.points, st.ticks) = (st.points.map (updateN k), st.ticks + k) ∧
      (tickLoop k (st.points, st.ticks)).1.length = st.points.length ∧
      (∀ i : Nat, (tickLoop k (st.points, st.ticks)).1[i]? = (st.points[i]?).map (updateN k)) ∧
      (k = 0 → (tickLoop k (st.points, st.ticks)).1 = st.points) ∧
      ∃ st1 b, frame inp st = some (st1, b) ∧ st1.ticks = st.ticks + k ∧
        st1.points = (dispatch inp.key inp.spawnColor (st.points.map (updateN k))).1 := by
  obtain ⟨-, h5, -⟩ := tickDuration_bounds h1 h200
  have hdt := deltaTime_of_fit hel hoff hfit
  have hd : 0 ≤ deltaTime inp.clockDelta st.ptime st.offset := by
    rw [hdt]; omega
  have hq : 0 ≤ deltaTime inp.clockDelta st.ptime st.offset / (1000 / tickRate) :=
    Int.ediv_nonneg hd (by omega)
  refine ⟨(deltaTime inp.clockDelta st.ptime st.offset / (1000 / tickRate)).toNat, hdt, ?_,
    frameTicks_eq h1 h200 hd, tickLoop_eq _ _ _, ?_, ?_, ?_, ?_⟩
  · rw [floor_div_int _ _ (by omega), Int.toNat_of_nonneg hq]
  · rw [tickLoop_eq, List.length_map]
  · intro i
    rw [tickLoop_eq, List.getElem?_map]
  · intro hk
    rw [hk]; rfl
  · exact ⟨_, _, frame_eq h1 h200 inp st hr hd, rfl, rfl⟩

/-- Witness for the amended C17: the first iteration of the program at rate 120 after
20 ms. -/
theorem frame_advances_points_witness :
    ∃ k : Nat,
      deltaTime 20 (initialState 0).ptime (initialState 0).offset =
        (20 - (initialState 0).ptime) + (initialState 0).offset ∧
      (k : Int) = ⌊((deltaTime 20 (initialState 0).ptime (initialState 0).offset : Int) : ℚ) /
        ((1000 / 120 : Int) : ℚ)⌋ ∧
      frameTicks (deltaTime 20 (initialState 0).ptime (initialState 0).offset) 120 = some k ∧
      tickLoop k ((initialState 0).points, (initialState 0).ticks) =
        ((initialState 0).points.map (updateN k), (initialState 0).ticks + k) ∧
      (tickLoop k ((initialState 0).points, (initialState 0).ticks)).1.length =
        (initialState 0).points.length ∧
      (∀ i : Nat, (tickLoop k ((initialState 0).points, (initialState 0).ticks)).1[i]? =
        ((initialState 0).points[i]?).map (updateN k)) ∧
      (k = 0 → (tickLoop k ((initialState 0).points, (initialState 0).ticks)).1 =
        (initialState 0).points) ∧
      ∃ st1 b, frame ⟨20, 20, 120, 200, -1, Scalar.rgb 0 0 0⟩ (initialState 0) = some (st1, b) ∧
        st1.ticks = (initialState 0).ticks + k ∧
        st1.points = (dispatch (-1) (Scalar.rgb 0 0 0)
          ((initialState 0).points.map (updateN k))).1 :=
  frame_advances_points 120 (by decide) (by decide) ⟨20, 20, 120, 200, -1, Scalar.rgb 0 0 0⟩
    (initialState 0) rfl (by decide) (by decide) (by decide)

/-! ## Conservation of time -/

/-- Time accounting of a run whose tick rate may change from iteration to iteration and
whose elapsed samples fit, with the offset, the `int` that `deltaTime` returns. -/
theorem runLoop_time_conserved :
    ∀ (inps : List FrameInput) (st : LoopState), 0 ≤ st.offset → st.offset < 1000 →
      (∀ inp ∈ inps, 1 ≤ inp.tickRate ∧ inp.tickRate ≤ 200) →
      (∀ inp ∈ inps, keepsRunning inp.key) →
      (∀ d ∈ samples st.ptime inps, 0 ≤ d ∧ d ≤ 2147482648) →
      ∃ st1, runLoop inps st = some st1 ∧
        (loopTrace inps st).map (fun t => t.1) = inps ∧
        st.offset + (samples st.ptime inps).sum =
          ((loopTrace inps st).map tickedTime).sum + st1.offset ∧
        ∀ t ∈ loopTrace inps st, 0 ≤ t.2.2.offset ∧ t.2.2.offset < 1000 / t.1.tickRate := by
  intro inps
  induction inps with
  | nil =>
    intro st _ _ _ _ _
    exact ⟨st, rfl, rfl, by simp [samples, loopTrace], by simp [loopTrace]⟩
  | cons inp rest ih =>
    intro st hoff hoff1 hrate hkeys hpos
    obtain ⟨h1, h200⟩ := hrate inp (by simp)
    obtain ⟨-, h5, h1000⟩ := tickDuration_bounds h1 h200
    obtain ⟨hd0, hd1⟩ := hpos (inp.clockDelta - st.ptime) (by simp [samples])
    have hdt : deltaTime inp.clockDelta st.ptime st.offset =
        inp.clockDelta - st.ptime + st.offset := deltaTime_of_fit hd0 hoff (by omega)
    have hd : 0 ≤ deltaTime inp.clockDelta st.ptime st.offset := by
      rw [hdt]; omega
    have hfr := frame_eq h1 h200 inp st rfl hd
    have hk := dispatch_snd_of_keepsRunning (hkeys inp (by simp)) inp.spawnColor
      (st.points.map (updateN
        (deltaTime inp.clockDelta st.ptime st.offset / (1000 / inp.tickRate)).toNat))
    rw [hk] at hfr
    have hq : 0 ≤ deltaTime inp.clockDelta st.ptime st.offset / (1000 / inp.tickRate) :=
      Int.ediv_nonneg hd (by omega)
    have hm0 : 0 ≤ deltaTime inp.clockDelta st.ptime st.offset % (1000 / inp.tickRate) :=
      Int.emod_nonneg _ (by omega)
    have hm1 : deltaTime inp.clockDelta st.ptime st.offset % (1000 / inp.tickRate) <
        1000 / inp.tickRate := Int.emod_lt_of_pos _ (by omega)
    obtain ⟨st1, hrun, htrace, hsum, hbound⟩ := ih
      { ptime := toInt32 inp.clockFrame
        offset := deltaTime inp.clockDelta st.ptime st.offset % (1000 / inp.tickRate)
        points := (dispatch inp.key inp.spawnColor
          (st.points.map (updateN
            (deltaTime inp.clockDelta st.ptime st.offset / (1000 / inp.tickRate)).toNat))).1
        ticks := st.ticks +
          (deltaTime inp.clockDelta st.ptime st.offset / (1000 / inp.tickRate)).toNat }
      hm0 (lt_of_lt_of_le hm1 h1000)
      (fun i hi => hrate i (List.mem_cons_of_mem _ hi))
      (fun i hi => hkeys i (List.mem_cons_of_mem _ hi))
      (fun d hd => hpos d (by simp only [samples, List.mem_cons]; exact Or.inr hd))
    refine ⟨st1, by simp only [runLoop, hfr]; exact hrun, ?_, ?_, ?_⟩
    · simp only [loopTrace, hfr, List.map_cons, htrace]
    · simp only [loopTrace, hfr, List.map_cons, List.sum_cons, samples, tickedTime,
        Nat.cast_add, Int.toNat_of_nonneg hq]
      have hsplit := Int.emod_add_ediv (deltaTime inp.clockDelta st.ptime st.offset)
        (1000 / inp.tickRate)
      simp only at hsum
      linarith [mul_comm (deltaTime inp.clockDelta st.ptime st.offset / (1000 / inp.tickRate))
        (1000 / inp.tickRate)]
    · intro t ht
      simp only [loopTrace, hfr, List.mem_cons] at ht
      rcases ht with rfl | ht
      · exact ⟨hm0, hm1⟩
      · exact hbound t ht

/-- Claim C18, refuted at an elapsed sample of `2 ^ 31` ms. At `tickRate = 1` (tick
duration 1000) one iteration from `offset = 0` gets the narrowed `delta = -2 ^ 31`: it
runs no tick and leaves the offset -648, so the ticked time plus the final offset is
-648, not the elapsed `2 ^ 31`, and the offset is not in `0 .. 999`. -/
theorem time_lost_beyond_int :
    (samples (initialState 0).ptime
        [⟨2147483648, 2147483648, 1, 200, -1, Scalar.rgb 0 0 0⟩]).sum = 2147483648 ∧
      (loopTrace [⟨2147483648, 2147483648, 1, 200, -1, Scalar.rgb 0 0 0⟩]
        (initialState 0)).map (fun t => (tickedTime t, t.2.2.offset)) = [(0, -648)] ∧
      (runLoop [⟨2147483648, 2147483648, 1, 200, -1, Scalar.rgb 0 0 0⟩] (initialState 0)).map
        LoopState.offset = some (-648) := by
  decide

/-- Claim C18 as amended. Time is conserved even when the tick rate changes between
iterations, while the samples fit `int`: for a run from `offset = 0` whose iterations
have tick rates in `1..200`, elapsed samples between 0 and `2 ^ 31 - 1000` and no
`break`, every iteration executes, the sum of the samples equals the sum over the
iterations of (ticks run) * (1000 / tickRate of that iteration) plus the final offset,
and after each iteration `0 <= offset < 1000 / tickRate` for its rate. -/
theorem time_conserved_across_rates (inps : List FrameInput) (st : LoopState)
    (hoff : st.offset = 0)
    (hrate : ∀ inp ∈ inps, 1 ≤ inp.tickRate ∧ inp.tickRate ≤ 200)
    (hkeys : ∀ inp ∈ inps, keepsRunning inp.key)
    (hpos : ∀ d ∈ samples st.ptime inps, 0 ≤ d ∧ d ≤ 2147482648) :
    ∃ st1, runLoop inps st = some st1 ∧
      (loopTrace inps st).map (fun t => t.1) = inps ∧
      (samples st.ptime inps).sum = ((loopTrace inps st).map tickedTime).sum + st1.offset ∧
      ∀ t ∈ loopTrace inps st, 0 ≤ t.2.2.offset ∧ t.2.2.offset < 1000 / t.1.tickRate := by
  obtain ⟨st1, hrun, htrace, hsum, hbound⟩ :=
    runLoop_time_conserved inps st (by omega) (by omega) hrate hkeys hpos
  exact ⟨st1, hrun, htrace, by omega, hbound⟩

/-- Witness for the amended C18: three iterations at the rates 120, 200 and 7 with
elapsed samples 20, 13 and 400. -/
theorem time_conserved_across_rates_witness :
    ∃ st1, runLoop
        [⟨20, 21, 120, 200, -1, Scalar.rgb 0 0 0⟩, ⟨34, 34, 200, 200, 32, Scalar.rgb 0 0 0⟩,
         ⟨434, 434, 7, 200, -1, Scalar.rgb 0 0 0⟩] (initialState 0) = some st1 ∧
      (loopTrace
        [⟨20, 21, 120, 200, -1, Scalar.rgb 0 0 0⟩, ⟨34, 34, 200, 200, 32, Scalar.rgb 0 0 0⟩,
         ⟨434, 434, 7, 200, -1, Scalar.rgb 0 0 0⟩] (initialState 0)).map (fun t => t.1) =
        [⟨20, 21, 120, 200, -1, Scalar.rgb 0 0 0⟩, ⟨34, 34, 200, 200, 32, Scalar.rgb 0 0 0⟩,
         ⟨434, 434, 7, 200, -1, Scalar.rgb 0 0 0⟩] ∧
      (samples (initialState 0).ptime
        [⟨20, 21, 120, 200, -1, Scalar.rgb 0 0 0⟩, ⟨34, 34, 200, 200, 32, Scalar.rgb 0 0 0⟩,
         ⟨434, 434, 7, 200, -1, Scalar.rgb 0 0 0⟩]).sum =
        ((loopTrace
          [⟨20, 21, 120, 200, -1, Scalar.rgb 0 0 0⟩, ⟨34, 34, 200, 200, 32, Scalar.rgb 0 0 0⟩,
           ⟨434, 434, 7, 200, -1, Scalar.rgb 0 0 0⟩] (initialState 0)).map tickedTime).sum +
          st1.offset ∧
      ∀ t ∈ loopTrace
        [⟨20, 21, 120, 200, -1, Scalar.rgb 0 0 0⟩, ⟨34, 34, 200, 200, 32, Scalar.rgb 0 0 0⟩,
         ⟨434, 434, 7, 200, -1, Scalar.rgb 0 0 0⟩] (initialState 0),
        0 ≤ t.2.2.offset ∧ t.2.2.offset < 1000 / t.1.tickRate :=
  time_conserved_across_rates _ (initialState 0) rfl (by simp) (by simp [keepsRunning])
    (by decide)

/-! ## The trail -/

theorem wrap_eq_mod {n ptr : Int} (h0 : 0 ≤ ptr) (hlt : ptr < n) :
    (if ptr + 1 < 0 ∨ ptr + 1 ≥ n then 0 else ptr + 1) = (ptr + 1) % n := by
  by_cases h : ptr + 1 = n
  · rw [if_pos (Or.inr (by omega)), h, Int.emod_self]
  · rw [if_neg (by omega), Int.emod_eq_of_lt (by omega) (by omega)]

theorem trailIndices_eq (h : List Int) : ∀ (m : Nat) (ptr : Int), 0 ≤ ptr → ptr < h.length →
    trailIndices h m ptr = (List.range m).map (fun i : Nat => (ptr + i) % (h.length : Int)) := by
  intro m
  induction m with
  | zero => intro ptr _ _; simp [trailIndices]
  | succ m ih =>
    intro ptr h0 hlt
    have hpos : (0 : Int) < h.length := by omega
    rw [trailIndices, wrap_eq_mod h0 hlt,
      ih _ (Int.emod_nonneg _ (by omega)) (Int.emod_lt_of_pos _ hpos),
      List.range_succ_eq_map, List.map_cons, List.map_map]
    congr 1
    · simp [Int.emod_eq_of_lt h0 hlt]
    · apply List.map_congr_left
      intro i _
      simp only [Function.comp, Int.emod_add_emod]
      congr 1
      push_cast
      ring

/-- Rotating a list to the slot after a write drops the head of the rotation to the
written slot and appends the written value. -/
theorem rotate_set_succ {α : Type} (h : List α) (c : Nat) (hc : c < h.length) (x : α) :
    (h.set c x).rotate ((c + 1) % h.length) = (h.rotate c).tail ++ [x] := by
  have hlen : (h.set c x).length = h.length := List.length_set ..
  have hA : (List.take c h).length = c := by rw [List.length_take]; omega
  have hrot : (h.set c x).rotate ((c + 1) % h.length) = (h.set c x).rotate (c + 1) := by
    rw [← hlen, List.rotate_mod]
  rw [hrot, List.rotate_eq_drop_append_take (by rw [hlen]; omega),
    List.rotate_eq_drop_append_take hc.le, List.set_eq_take_append_cons_drop, if_pos hc]
  have hdrop : List.drop (c + 1) (List.take c h ++ x :: List.drop (c + 1) h)
      = List.drop (c + 1) h := by
    have := @List.drop_append _ (List.take c h) (x :: List.drop (c + 1) h) 1
    rw [hA] at this
    rw [this]; rfl
  have htake : List.take (c + 1) (List.take c h ++ x :: List.drop (c + 1) h)
      = List.take c h ++ [x] := by
    have := @List.take_append _ (List.take c h) (x :: List.drop (c + 1) h) 1
    rw [hA] at this
    rw [this]; rfl
  have hne : List.drop c h ≠ [] := by
    intro hnil
    have := congrArg List.length hnil
    rw [List.length_drop] at this
    simp at this
    omega
  rw [hdrop, htake, List.tail_append_of_ne_nil hne, List.tail_drop, List.append_assoc]

/-- The samples drawn are the history rotated to the cursor; every read is inside the
history. -/
theorem trailSamples_eq_rotate (p : PhysicsPoint) (h0 : 0 ≤ p.pointer)
    (hlt : p.pointer < p.history.length) :
    trailSamples p = (p.history.rotate p.pointer.toNat).map some := by
  obtain ⟨c, hc⟩ := Int.eq_ofNat_of_zero_le h0
  have hcl : c < p.history.length := by omega
  rw [trailSamples, PhysicsPoint.getHistory, trailIndices_eq _ _ _ h0 hlt, List.map_map, hc,
    Int.toNat_ofNat]
  apply List.ext_getElem?
  intro i
  by_cases hi : i < p.history.length
  · have hmod : (i + c) % p.history.length < p.history.length := Nat.mod_lt _ (by omega)
    have hidx : ((c : Int) + (i : Int)) % (p.history.length : Int)
        = (((i + c) % p.history.length : Nat) : Int) := by
      push_cast; rw [add_comm]
    rw [List.getElem?_map, List.getElem?_map, List.getElem?_range hi,
      List.getElem?_rotate hi]
    show some (vecGet p.history (((c : Int) + (i : Int)) % (p.history.length : Int))) = _
    rw [hidx, vecGet, if_pos (Int.natCast_nonneg _), Int.toNat_ofNat,
      List.getElem?_eq_getElem hmod]
    rfl
  · rw [List.getElem?_eq_none (by simp; omega), List.getElem?_eq_none (by simp; omega)]

theorem rotate_update (p : PhysicsPoint) (h0 : 0 ≤ p.pointer)
    (hlt : p.pointer < p.history.length) :
    p.update.history.rotate p.update.pointer.toNat =
      (p.history.rotate p.pointer.toNat).tail ++ [toInt p.update.s] := by
  obtain ⟨c, hc⟩ := Int.eq_ofNat_of_zero_le h0
  have hcl : c < p.history.length := by omega
  obtain ⟨hptr, -⟩ := p.update_pointer_mod h0 hlt
  have hnat : p.update.pointer.toNat = (c + 1) % p.history.length := by
    rw [hptr, hc]
    have : ((c : Int) + 1) % (p.history.length : Int)
        = (((c + 1) % p.history.length : Nat) : Int) := by push_cast; rfl
    rw [this, Int.toNat_ofNat]
  rw [hnat, PhysicsPoint.update_history, vecSet, if_pos h0, hc, Int.toNat_ofNat]
  exact rotate_set_succ _ _ hcl _

theorem length_sampleTrace : ∀ (k : Nat) (p : PhysicsPoint), (sampleTrace k p).length = k := by
  intro k
  induction k with
  | zero => intro p; rfl
  | succ k ih => intro p; simp [sampleTrace, ih]

/-- After `k` updates the history rotated to the cursor is the queue of the old rotated
history followed by the `k` samples written, with its `k` oldest entries dropped. -/
theorem rotate_updateN : ∀ (k : Nat) (p : PhysicsPoint), 0 ≤ p.pointer →
    p.pointer < p.history.length →
    (updateN k p).history.rotate (updateN k p).pointer.toNat =
      ((p.history.rotate p.pointer.toNat) ++ sampleTrace k p).drop k := by
  intro k
  induction k with
  | zero => intro p _ _; simp [updateN, sampleTrace]
  | succ k ih =>
    intro p h0 hlt
    obtain ⟨hptr, hlen⟩ := p.update_pointer_mod h0 hlt
    have hpos : (0 : Int) < p.history.length := by omega
    have hne : p.history.rotate p.pointer.toNat ≠ [] := by
      intro hnil
      have := congrArg List.length hnil
      rw [List.length_rotate, List.length_nil] at this
      omega
    rw [updateN, ih p.update (by rw [hptr]; exact Int.emod_nonneg _ (by omega))
      (by rw [hptr, hlen]; exact Int.emod_lt_of_pos _ hpos), rotate_update p h0 hlt,
      sampleTrace, List.append_assoc, List.singleton_append,
      ← List.tail_append_of_ne_nil hne, ← List.drop_one, List.drop_drop]
    congr 1
    omega

theorem getLast?_sampleTrace : ∀ (k : Nat) (p : PhysicsPoint),
    (sampleTrace (k + 1) p).getLast? = some (toInt (updateN (k + 1) p).s) := by
  intro k
  induction k with
  | zero => intro p; simp [sampleTrace, updateN]
  | succ k ih =>
    intro p
    rw [sampleTrace, updateN, ← ih p.update]
    rw [sampleTrace]
    simp [List.getLast?_cons_cons]

/-- Claim C15. Trail samples are drawn oldest first: for a point with
`0 <= pointer < n`, `n` the length of its history, the history loop of `render` reads
`history[(pointer + i) mod n]` for `i = 0 .. n-1`, every read is inside the history, and
every slot is read exactly once; and after `k >= n` updates of such a point the samples
drawn are the last `n` of the `k` samples recorded, in the order they were recorded, so
the first is the oldest retained sample and the last is the most recent one, the
current displacement. -/
theorem trail_drawn_oldest_first :
    (∀ p : PhysicsPoint, 0 ≤ p.pointer → p.pointer < p.history.length →
      trailIndices p.getHistory p.getHistory.length p.pointer =
        (List.range p.history.length).map
          (fun i : Nat => (p.pointer + i) % (p.history.length : Int)) ∧
      trailSamples p = (List.range p.history.length).map
        (fun i : Nat => vecGet p.history ((p.pointer + i) % (p.history.length : Int))) ∧
      trailSamples p = (p.history.rotate p.pointer.toNat).map some ∧
      ∀ j : Nat, j < p.history.length →
        (trailIndices p.getHistory p.getHistory.length p.pointer).count (j : Int) = 1) ∧
    (∀ (p : PhysicsPoint) (k : Nat), 0 ≤ p.pointer → p.pointer < p.history.length →
      p.history.length ≤ k →
      (sampleTrace k p).length = k ∧
      trailSamples (updateN k p) =
        ((sampleTrace k p).drop (k - p.history.length)).map some ∧
      (trailSamples (updateN k p)).length = p.history.length ∧
      (trailSamples (updateN k p)).getLast? = some (some (toInt (updateN k p).s))) := by
  constructor
  · intro p h0 hlt
    refine ⟨trailIndices_eq _ _ _ h0 hlt, ?_, trailSamples_eq_rotate p h0 hlt, ?_⟩
    · rw [trailSamples, PhysicsPoint.getHistory, trailIndices_eq _ _ _ h0 hlt, List.map_map]
      rfl
    · intro j hj
      rw [PhysicsPoint.getHistory, trailIndices_eq _ _ _ h0 hlt]
      exact count_rotated_range _ _ j hj
  · intro p k h0 hlt hk
    obtain ⟨hptrk, hlenk⟩ := updateN_pointer k p h0 hlt
    have hpos : (0 : Int) < p.history.length := by omega
    have h0k : 0 ≤ (updateN k p).pointer := by
      rw [hptrk]; exact Int.emod_nonneg _ (by omega)
    have hltk : (updateN k p).pointer < (updateN k p).history.length := by
      rw [hptrk, hlenk]; exact Int.emod_lt_of_pos _ hpos
    have hdrop : trailSamples (updateN k p) =
        ((sampleTrace k p).drop (k - p.history.length)).map some := by
      rw [trailSamples_eq_rotate _ h0k hltk, rotate_updateN k p h0 hlt,
        List.drop_append_eq_append_drop, List.length_rotate,
        List.drop_of_length_le (by rw [List.length_rotate]; exact hk), List.nil_append]
    refine ⟨length_sampleTrace k p, hdrop, ?_, ?_⟩
    · rw [hdrop, List.length_map, List.length_drop, length_sampleTrace]
      omega
    · obtain ⟨k1, rfl⟩ : ∃ k1, k = k1 + 1 := ⟨k - 1, by omega⟩
      rw [hdrop, List.getLast?_map, List.getLast?_drop, length_sampleTrace,
        if_neg (by omega), getLast?_sampleTrace]
      rfl

/-! ## The wraparound law -/

/-- Claim C9. Wraparound law: for a point whose cursor is inside its history of `n`
slots, after exactly `n` calls of `update()` the cursor has its original value; call
number `i + 1` writes its sample into the slot `(pointer + i) mod n` of the history and
leaves every other slot as it was; these `n` slots are every slot of the history
exactly once; and afterwards the history, read from the cursor on, is exactly the `n`
samples written, in call order. -/
theorem wraparound_law (p : PhysicsPoint) (h0 : 0 ≤ p.pointer)
    (hlt : p.pointer < p.history.length) :
    (updateN p.history.length p).pointer = p.pointer ∧
      writeTrace p.history.length p = (List.range p.history.length).map
        (fun i : Nat => (p.pointer + i) % (p.history.length : Int)) ∧
      (∀ i : Nat, i < p.history.length →
        (updateN i p).pointer = (p.pointer + i) % (p.history.length : Int) ∧
        vecGet (updateN (i + 1) p).history ((p.pointer + i) % (p.history.length : Int)) =
          some (toInt (updateN (i + 1) p).s) ∧
        ∀ j : Int, j ≠ (p.pointer + i) % (p.history.length : Int) →
          vecGet (updateN (i + 1) p).history j = vecGet (updateN i p).history j) ∧
      (∀ j : Nat, j < p.history.length →
        (writeTrace p.history.length p).count (j : Int) = 1) ∧
      (updateN p.history.length p).history.rotate p.pointer.toNat =
        sampleTrace p.history.length p := by
  have hpos : (0 : Int) < p.history.length := by omega
  have hback : (updateN p.history.length p).pointer = p.pointer := by
    rw [(updateN_pointer _ p h0 hlt).1, Int.add_emod_self, Int.emod_eq_of_lt h0 hlt]
  refine ⟨hback, writeTrace_eq _ p h0 hlt, ?_, ?_, ?_⟩
  · intro i _
    obtain ⟨hq, hql⟩ := updateN_pointer i p h0 hlt
    have hq0 : 0 ≤ (updateN i p).pointer := by
      rw [hq]; exact Int.emod_nonneg _ (by omega)
    have hqlt : (updateN i p).pointer < (updateN i p).history.length := by
      rw [hq, hql]; exact Int.emod_lt_of_pos _ hpos
    rw [updateN_succ_right, ← hq]
    refine ⟨rfl, ?_, ?_⟩
    · rw [PhysicsPoint.update_history]
      exact vecGet_vecSet_self hq0 hqlt _
    · intro j hj
      rw [PhysicsPoint.update_history]
      exact vecGet_vecSet_of_ne _ hj _
  · intro j hj
    rw [writeTrace_eq _ p h0 hlt]
    exact count_rotated_range _ _ j hj
  · have h := rotate_updateN p.history.length p h0 hlt
    rw [hback, List.drop_append_eq_append_drop, List.length_rotate, Nat.sub_self,
      List.drop_zero, List.drop_of_length_le (by rw [List.length_rotate]),
      List.nil_append] at h
    exact h

/-- Witness for C9: a point with three history slots and the cursor on the last. -/
theorem wraparound_law_witness :
    (updateN (PhysicsPoint.mk 0 25 0 2 [7, 8, 9] (Scalar.rgb 0 0 0)).history.length
        ⟨0, 25, 0, 2, [7, 8, 9], Scalar.rgb 0 0 0⟩).pointer =
      (PhysicsPoint.mk 0 25 0 2 [7, 8, 9] (Scalar.rgb 0 0 0)).pointer ∧
    writeTrace (PhysicsPoint.mk 0 25 0 2 [7, 8, 9] (Scalar.rgb 0 0 0)).history.length
        ⟨0, 25, 0, 2, [7, 8, 9], Scalar.rgb 0 0 0⟩ =
      (List.range (PhysicsPoint.mk 0 25 0 2 [7, 8, 9] (Scalar.rgb 0 0 0)).history.length).map
        (fun i : Nat => ((PhysicsPoint.mk 0 25 0 2 [7, 8, 9] (Scalar.rgb 0 0 0)).pointer + i) %
          ((PhysicsPoint.mk 0 25 0 2 [7, 8, 9] (Scalar.rgb 0 0 0)).history.length : Int)) ∧
    (∀ i : Nat, i < (PhysicsPoint.mk 0 25 0 2 [7, 8, 9] (Scalar.rgb 0 0 0)).history.length →
      (updateN i ⟨0, 25, 0, 2, [7, 8, 9], Scalar.rgb 0 0 0⟩).pointer =
        ((PhysicsPoint.mk 0 25 0 2 [7, 8, 9] (Scalar.rgb 0 0 0)).pointer + i) %
          ((PhysicsPoint.mk 0 25 0 2 [7, 8, 9] (Scalar.rgb 0 0 0)).history.length : Int) ∧
      vecGet (updateN (i + 1) ⟨0, 25, 0, 2, [7, 8, 9], Scalar.rgb 0 0 0⟩).history
          (((PhysicsPoint.mk 0 25 0 2 [7, 8, 9] (Scalar.rgb 0 0 0)).pointer + i) %
            ((PhysicsPoint.mk 0 25 0 2 [7, 8, 9] (Scalar.rgb 0 0 0)).history.length : Int)) =
        some (toInt (updateN (i + 1) ⟨0, 25, 0, 2, [7, 8, 9], Scalar.rgb 0 0 0⟩).s) ∧
      ∀ j : Int, j ≠ ((PhysicsPoint.mk 0 25 0 2 [7, 8, 9] (Scalar.rgb 0 0 0)).pointer + i) %
          ((PhysicsPoint.mk 0 25 0 2 [7, 8, 9] (Scalar.rgb 0 0 0)).history.length : Int) →
        vecGet (updateN (i + 1) ⟨0, 25, 0, 2, [7, 8, 9], Scalar.rgb 0 0 0⟩).history j =
          vecGet (updateN i ⟨0, 25, 0, 2, [7, 8, 9], Scalar.rgb 0 0 0⟩).history j) ∧
    (∀ j : Nat, j < (PhysicsPoint.mk 0 25 0 2 [7, 8, 9] (Scalar.rgb 0 0 0)).history.length →
      (writeTrace (PhysicsPoint.mk 0 25 0 2 [7, 8, 9] (Scalar.rgb 0 0 0)).history.length
        ⟨0, 25, 0, 2, [7, 8, 9], Scalar.rgb 0 0 0⟩).count (j : Int) = 1) ∧
    (updateN (PhysicsPoint.mk 0 25 0 2 [7, 8, 9] (Scalar.rgb 0 0 0)).history.length
        ⟨0, 25, 0, 2, [7, 8, 9], Scalar.rgb 0 0 0⟩).history.rotate
        (PhysicsPoint.mk 0 25 0 2 [7, 8, 9] (Scalar.rgb 0 0 0)).pointer.toNat =
      sampleTrace (PhysicsPoint.mk 0 25 0 2 [7, 8, 9] (Scalar.rgb 0 0 0)).history.length
        ⟨0, 25, 0, 2, [7, 8, 9], Scalar.rgb 0 0 0⟩ :=
  wraparound_law ⟨0, 25, 0, 2, [7, 8, 9], Scalar.rgb 0 0 0⟩ (by decide) (by decide)

/-! ## The samples in the history -/

theorem toInt_update_s_ge (p : PhysicsPoint) (hfit : p.update.s < 2147483648) :
    20 ≤ toInt p.update.s := by
  have hge := p.update_s_ge
  rw [toInt_of_range (by linarith) hfit]
  exact Int.le_floor.mpr (by exact_mod_cast hge)

theorem floorTrail_new (v s a : ℚ) (c : Scalar) : FloorTrail 0 (PhysicsPoint.new v s a c) := by
  have hlen := PhysicsPoint.new_history_length v s a c
  refine ⟨hlen, le_refl _, show (0 : Int) < 100 by decide, ?_, ?_, ?_⟩
  · intro x hx
    left
    simp only [PhysicsPoint.new] at hx
    exact List.eq_of_mem_replicate hx
  · intro h; omega
  · intro j h1 hk; omega

theorem floorTrail_setVelocity {k : Nat} {p : PhysicsPoint} (x : ℚ) (h : FloorTrail k p) :
    FloorTrail k { p with v := x } := h

theorem floorTrail_update {k : Nat} {p : PhysicsPoint} (h : FloorTrail k p)
    (hfit : p.update.s < 2147483648) : FloorTrail (k + 1) p.update := by
  obtain ⟨hlen, h0, hlt, hmem, -, hback⟩ := h
  have hlt2 : p.pointer < (p.history.length : Int) := by rw [hlen]; exact_mod_cast hlt
  obtain ⟨hptr, hl⟩ := p.update_pointer_mod h0 hlt2
  have hptr100 : p.update.pointer = (p.pointer + 1) % 100 := by
    rw [hptr, hlen]; rfl
  have hsample := toInt_update_s_ge p hfit
  have hself : vecGet p.update.history p.pointer = some (toInt p.update.s) := by
    rw [PhysicsPoint.update_history]
    exact vecGet_vecSet_self h0 hlt2 _
  refine ⟨by rw [hl, hlen], by omega, by omega, ?_, ?_, ?_⟩
  · intro x hx
    rw [PhysicsPoint.update_history, vecSet, if_pos h0] at hx
    rcases List.mem_or_eq_of_mem_set hx with hx | rfl
    · exact hmem x hx
    · exact Or.inr hsample
  · intro _
    have hidx : (p.update.pointer - 1) % 100 = p.pointer := by omega
    rw [hidx]
    exact ⟨p.update_s_ge, hfit, hself⟩
  · intro j hj1 hjk hj100
    by_cases hone : j = 1
    · have hidx : (p.update.pointer - j) % 100 = p.pointer := by omega
      rw [hidx]
      exact ⟨_, hself, hsample⟩
    · have hidx : (p.update.pointer - j) % 100 = (p.pointer - (j - 1)) % 100 := by omega
      have hne : (p.pointer - (j - 1)) % 100 ≠ p.pointer := by omega
      rw [hidx, PhysicsPoint.update_history, vecGet_vecSet_of_ne _ hne]
      exact hback (j - 1) (by omega) (by push_cast at hjk; omega) (by omega)

theorem floorTrail_runPointOps : ∀ (ops : List PointOp) (k : Nat) (p : PhysicsPoint),
    FloorTrail k p → samplesFitInt ops p →
    FloorTrail (k + updateCount ops) (runPointOps ops p) := by
  intro ops
  induction ops with
  | nil => intro k p h _; simpa [updateCount, runPointOps] using h
  | cons op ops ih =>
    intro k p h hfit
    cases op with
    | update =>
      have := ih (k + 1) p.update (floorTrail_update h hfit.1) hfit.2
      simp only [updateCount, List.count_cons_self] at this ⊢
      rw [show k + (List.count PointOp.update ops + 1) = k + 1 + List.count PointOp.update ops
        by omega]
      exact this
    | setVelocity x =>
      have := ih k { p with v := x } (floorTrail_setVelocity x h) hfit
      simp only [updateCount] at this ⊢
      rw [List.count_cons_of_ne (by simp)]
      exact this

/-- With at least 100 updates every one of the 100 slots has been written. -/
theorem floorTrail_all_ge {k : Nat} {p : PhysicsPoint} (h : FloorTrail k p) (hk : 100 ≤ k) :
    ∀ x ∈ p.history, 20 ≤ x := by
  obtain ⟨hlen, h0, hlt, -, -, hback⟩ := h
  intro x hx
  obtain ⟨i, hi, rfl⟩ := List.mem_iff_getElem.mp hx
  have hi100 : i < 100 := by omega
  obtain ⟨y, hy, hy20⟩ := hback (if p.pointer - i ≤ 0 then p.pointer - i + 100 else p.pointer - i)
    (by split_ifs <;> omega) (by split_ifs <;> omega) (by split_ifs <;> omega)
  have hidx : (p.pointer - (if p.pointer - i ≤ 0 then p.pointer - i + 100 else p.pointer - i))
      % 100 = (i : Int) := by
    split_ifs <;> omega
  rw [hidx, vecGet, if_pos (Int.natCast_nonneg _), Int.toNat_ofNat,
    List.getElem?_eq_getElem hi] at hy
  cases hy
  exact hy20

/-- Claim C20, refuted by a point constructed with the displacement `3 * 10 ^ 9`. One
`update()` of `PhysicsPoint(0, 3000000000, 0, colour)` leaves `s = 3000000000`, which
does not fit `int`: the cast `(int)s` stores `INT_MIN` in slot 0, a value that is
neither 0 nor at least 20 and not the integer part of the displacement. -/
theorem cast_beyond_int_breaks_floor :
    updateCount [PointOp.update] = 1 ∧
      (runPointOps [PointOp.update]
        (PhysicsPoint.new 0 3000000000 0 (Scalar.rgb 0 0 0))).s = 3000000000 ∧
      (runPointOps [PointOp.update]
        (PhysicsPoint.new 0 3000000000 0 (Scalar.rgb 0 0 0))).pointer = 1 ∧
      vecGet (runPointOps [PointOp.update]
        (PhysicsPoint.new 0 3000000000 0 (Scalar.rgb 0 0 0))).history 0 =
          some (-2147483648) := by
  have hs : (PhysicsPoint.new 0 3000000000 0 (Scalar.rgb 0 0 0)).update.s = 3000000000 := by
    rw [PhysicsPoint.update_s]; norm_num [PhysicsPoint.new]
  have hcast : toInt (3000000000 : ℚ) = -2147483648 := by
    have htr : truncate (3000000000 : ℚ) = 3000000000 := by
      rw [truncate, if_pos (by norm_num), Int.floor_eq_iff]
      constructor <;> norm_num
    rw [toInt, htr, if_neg (by omega)]
  have hlen : (0 : Int) <
      ((PhysicsPoint.new 0 3000000000 0 (Scalar.rgb 0 0 0)).history.length : Int) := by
    rw [PhysicsPoint.new_history_length]; decide
  obtain ⟨hptr, -⟩ := (PhysicsPoint.new 0 3000000000 0 (Scalar.rgb 0 0 0)).update_pointer_mod
    (le_refl _) hlen
  refine ⟨by decide, hs, ?_, ?_⟩
  · show (PhysicsPoint.new 0 3000000000 0 (Scalar.rgb 0 0 0)).update.pointer = 1
    rw [hptr, PhysicsPoint.new_history_length]
    rfl
  · show vecGet (PhysicsPoint.new 0 3000000000 0 (Scalar.rgb 0 0 0)).update.history 0 = _
    rw [PhysicsPoint.update_history, hs, hcast]
    exact vecGet_vecSet_self (le_refl _) hlen _

/-- Claim C20 as amended. The history holds only floor-respecting samples while the
displacement fits `int`: in every state reached from a newly constructed point by
`update()` calls and velocity overwrites, each update leaving a displacement below
`2 ^ 31`, every history slot is 0 or an integer of at least 20; once at least one
update has run, the slot cyclically just before the cursor holds the integer part of
the current displacement; and after at least `length` updates every slot is at least
20. -/
theorem history_respects_floor (v s a : ℚ) (c : Scalar) (ops : List PointOp)
    (hfit : samplesFitInt ops (PhysicsPoint.new v s a c)) :
    (runPointOps ops (PhysicsPoint.new v s a c)).history.length = 100 ∧
    (∀ x ∈ (runPointOps ops (PhysicsPoint.new v s a c)).history, x = 0 ∨ 20 ≤ x) ∧
    (1 ≤ updateCount ops →
      vecGet (runPointOps ops (PhysicsPoint.new v s a c)).history
        (((runPointOps ops (PhysicsPoint.new v s a c)).pointer - 1) %
          ((runPointOps ops (PhysicsPoint.new v s a c)).history.length : Int)) =
        some (toInt (runPointOps ops (PhysicsPoint.new v s a c)).s) ∧
      toInt (runPointOps ops (PhysicsPoint.new v s a c)).s =
        ⌊(runPointOps ops (PhysicsPoint.new v s a c)).s⌋) ∧
    ((runPointOps ops (PhysicsPoint.new v s a c)).history.length ≤ updateCount ops →
      ∀ x ∈ (runPointOps ops (PhysicsPoint.new v s a c)).history, 20 ≤ x) := by
  have h := floorTrail_runPointOps ops 0 _ (floorTrail_new v s a c) hfit
  rw [Nat.zero_add] at h
  have hlen := h.1
  refine ⟨hlen, h.2.2.2.1, ?_, ?_⟩
  · intro hk
    obtain ⟨hs, hs1, hslot⟩ := h.2.2.2.2.1 hk
    rw [hlen]
    exact ⟨hslot, toInt_of_range (by linarith) hs1⟩
  · intro hk
    rw [hlen] at hk
    exact floorTrail_all_ge h hk

/-- Witness for the amended C20: the initial point of the program after an update, a
velocity overwrite and another update. -/
theorem history_respects_floor_witness :
    (runPointOps [PointOp.update, PointOp.setVelocity 3, PointOp.update]
      (PhysicsPoint.new 8 20 (-0.0981) (Scalar.rgb 0 255 0))).history.length = 100 ∧
    (∀ x ∈ (runPointOps [PointOp.update, PointOp.setVelocity 3, PointOp.update]
      (PhysicsPoint.new 8 20 (-0.0981) (Scalar.rgb 0 255 0))).history, x = 0 ∨ 20 ≤ x) ∧
    (1 ≤ updateCount [PointOp.update, PointOp.setVelocity 3, PointOp.update] →
      vecGet (runPointOps [PointOp.update, PointOp.setVelocity 3, PointOp.update]
        (PhysicsPoint.new 8 20 (-0.0981) (Scalar.rgb 0 255 0))).history
        (((runPointOps [PointOp.update, PointOp.setVelocity 3, PointOp.update]
          (PhysicsPoint.new 8 20 (-0.0981) (Scalar.rgb 0 255 0))).pointer - 1) %
          ((runPointOps [PointOp.update, PointOp.setVelocity 3, PointOp.update]
            (PhysicsPoint.new 8 20 (-0.0981) (Scalar.rgb 0 255 0))).history.length : Int)) =
        some (toInt (runPointOps [PointOp.update, PointOp.setVelocity 3, PointOp.update]
          (PhysicsPoint.new 8 20 (-0.0981) (Scalar.rgb 0 255 0))).s) ∧
      toInt (runPointOps [PointOp.update, PointOp.setVelocity 3, PointOp.update]
          (PhysicsPoint.new 8 20 (-0.0981) (Scalar.rgb 0 255 0))).s =
        ⌊(runPointOps [PointOp.update, PointOp.setVelocity 3, PointOp.update]
          (PhysicsPoint.new 8 20 (-0.0981) (Scalar.rgb 0 255 0))).s⌋) ∧
    ((runPointOps [PointOp.update, PointOp.setVelocity 3, PointOp.update]
        (PhysicsPoint.new 8 20 (-0.0981) (Scalar.rgb 0 255 0))).history.length ≤
        updateCount [PointOp.update, PointOp.setVelocity 3, PointOp.update] →
      ∀ x ∈ (runPointOps [PointOp.update, PointOp.setVelocity 3, PointOp.update]
        (PhysicsPoint.new 8 20 (-0.0981) (Scalar.rgb 0 255 0))).history, 20 ≤ x) :=
  history_respects_floor 8 20 (-0.0981) (Scalar.rgb 0 255 0)
    [PointOp.update, PointOp.setVelocity 3, PointOp.update]
    (by
      have h1 : (PhysicsPoint.new 8 20 (-0.0981) (Scalar.rgb 0 255 0)).update.s
          = 279019 / 10000 := by
        rw [PhysicsPoint.update_s]; norm_num [PhysicsPoint.new]
      have h1a : (PhysicsPoint.new 8 20 (-0.0981) (Scalar.rgb 0 255 0)).update.a
          = -981 / 10000 := by
        rw [PhysicsPoint.update_a]; norm_num [PhysicsPoint.new]
      refine ⟨by rw [h1]; norm_num, ?_, trivial⟩
      rw [PhysicsPoint.update_s]
      simp only [h1, h1a]
      norm_num)

end DeltaTime
